import Mathlib

/-!
# Verification of the Obsidian MOC exporter core

Shallow embedding of `src/moc_exporter/exporter.py` (class `ObsidianMOCExporter`).

Two layers are modelled:

* the traversal engine `collect_notes_recursive` (graph layer): vault documents
  are identified by natural numbers; the parsed-and-resolved reference list of a
  document (the result of `extract_links` plus `find_note_file` /
  `find_attachment_file` resolution, which are deterministic within a run
  because the filename cache is built once) is a `List RefItem`; a document
  whose text cannot be read is modelled by `none`;
* the rewrite engine `convert_to_standard_markdown` (string layer): Python
  strings are `List Char`, and the three `re` patterns (`WIKILINK_PATTERN`,
  `EMBED_PATTERN`, `COMMENT_PATTERN`) are implemented as deterministic
  left-to-right scanners, which is exactly their backtracking behaviour since
  every quantified character class excludes the characters the pattern's
  continuation requires.
-/

/-- One entry of the `extract_links` result after target resolution, as consumed
by the loop in `collect_notes_recursive` (exporter.py lines 254-270):
`attach r` is a link whose `#`-stripped filename satisfies `is_attachment`,
with `r` the `find_attachment_file` result; `note r` is a non-attachment link
with `r` the `find_note_file` result; `skipped` is a link whose filename is
empty after stripping the `#` fragment (the `continue` branch). -/
inductive RefItem where
  | attach : Option Nat → RefItem
  | note : Option Nat → RefItem
  | skipped : RefItem
deriving DecidableEq

/-- The mutable exporter state touched by the traversal:
`collected_notes` is the insertion-ordered dict `note_path -> depth`,
`collected_attachments` the attachment set.  `expansions` is a ghost log, not
present in the source, recording `(note, depth)` (most recent first) each time
the traversal follows a document's references (read succeeded and
`depth < max_depth`); it lets us state how often a document is expanded. -/
structure TraversalState where
  collected_notes : List (Nat × Nat)
  collected_attachments : List Nat
  expansions : List (Nat × Nat)
deriving DecidableEq

/-- Python dict lookup on the insertion-ordered association list. -/
def lookupNote : List (Nat × Nat) → Nat → Option Nat
  | [], _ => none
  | (m, v) :: t, n => if m = n then some v else lookupNote t n

/-- Python dict assignment `d[n] = depth`: overwrite in place if the key is
present, otherwise append (insertion order preserved). -/
def setNote : List (Nat × Nat) → Nat → Nat → List (Nat × Nat)
  | [], n, d => [(n, d)]
  | (m, v) :: t, n, d => if m = n then (m, d) :: t else (m, v) :: setNote t n d

/-- Python `set.add` on the attachment set (membership is what matters). -/
def addAttachment (a : List Nat) (p : Nat) : List Nat :=
  if p ∈ a then a else p :: a

/-- The revisit guard of `collect_notes_recursive` (lines 235-238): return
immediately when the note was already collected at the same or lower depth. -/
def skipVisit (prev : Option Nat) (depth : Nat) : Bool :=
  match prev with
  | some d0 => d0 ≤ depth
  | none => false

mutual

/-- Model of `collect_notes_recursive(note, depth)` (exporter.py lines 227-270).
`fuel` is an explicit recursion budget: the Python recursion nests at most
`max_depth + 1` deep because every recursive call increments `depth` and the
function returns as soon as `max_depth <= depth`, so with any
`fuel ≥ maxDepth + 1 - depth` the `fuel = 0` clause is dead code (proved as
`collect_fuel_irrelevant`). -/
def collect_notes_recursive (vault : Nat → Option (List RefItem)) (maxDepth : Nat) :
    Nat → Nat → Nat → TraversalState → TraversalState
  | 0, _, _, s => s
  | fuel + 1, note, depth, s =>
    if skipVisit (lookupNote s.collected_notes note) depth then s
    else
      let s1 : TraversalState :=
        { s with collected_notes := setNote s.collected_notes note depth }
      if maxDepth ≤ depth then s1
      else
        match vault note with
        | none => s1
        | some links =>
          collectLinks vault maxDepth fuel links depth
            { s1 with expansions := (note, depth) :: s1.expansions }
termination_by fuel note depth s => (fuel, 0)

/-- The `for target, _, is_embed in links` loop body of
`collect_notes_recursive` (lines 255-270): attachments are added to the set
when resolved, resolved notes are recursed into at `depth + 1`, unresolved or
empty targets are skipped. -/
def collectLinks (vault : Nat → Option (List RefItem)) (maxDepth : Nat) :
    Nat → List RefItem → Nat → TraversalState → TraversalState
  | _, [], _, s => s
  | fuel, RefItem.attach res :: rest, depth, s =>
    collectLinks vault maxDepth fuel rest depth
      (match res with
       | some p => { s with collected_attachments := addAttachment s.collected_attachments p }
       | none => s)
  | fuel, RefItem.note res :: rest, depth, s =>
    collectLinks vault maxDepth fuel rest depth
      (match res with
       | some c => collect_notes_recursive vault maxDepth fuel c (depth + 1) s
       | none => s)
  | fuel, RefItem.skipped :: rest, depth, s =>
    collectLinks vault maxDepth fuel rest depth s
termination_by fuel links depth s => (fuel, links.length + 1)

end

/-- The empty exporter state (`collected_notes = {}`, `collected_attachments = set()`). -/
def initState : TraversalState :=
  { collected_notes := [], collected_attachments := [], expansions := [] }

/-- The traversal as invoked by `export`: `collect_notes_recursive(moc_file, 0)`
on a fresh exporter, run with sufficient fuel. -/
def runCollect (vault : Nat → Option (List RefItem)) (maxDepth root : Nat) : TraversalState :=
  collect_notes_recursive vault maxDepth (maxDepth + 1) root 0 initState

/-- Relation `RefPath vault root n k`: there is a reference path of length `k` from
`root` to `n`, each hop going from a readable document to one of its resolved
note links. -/
inductive RefPath (vault : Nat → Option (List RefItem)) : Nat → Nat → Nat → Prop where
  | refl (n : Nat) : RefPath vault n n 0
  | step {root m k c : Nat} {links : List RefItem} :
      RefPath vault root m k → vault m = some links →
      RefItem.note (some c) ∈ links → RefPath vault root c (k + 1)

/-! ## C7: `max_depth = 0` collects exactly the root -/

/-- C7: with `max_depth = 0`, `collect_notes_recursive(root, 0)` records exactly
the root document at depth 0 and returns before reading the root or following
any of its references (no expansion is logged), so any document other than the
root — in particular a document linked from the root — is absent from
`collected_notes`. -/
theorem collect_maxdepth_zero (vault : Nat → Option (List RefItem)) (root : Nat) :
    runCollect vault 0 root =
      { collected_notes := [(root, 0)], collected_attachments := [], expansions := [] } ∧
    lookupNote (runCollect vault 0 root).collected_notes root = some 0 ∧
    ∀ m, m ≠ root → lookupNote (runCollect vault 0 root).collected_notes m = none := by
  have h : runCollect vault 0 root =
      { collected_notes := [(root, 0)], collected_attachments := [], expansions := [] } := by
    rw [runCollect, collect_notes_recursive]
    simp [skipVisit, lookupNote, initState, setNote]
  refine ⟨h, ?_, ?_⟩
  · rw [h]
    simp [lookupNote]
  · intro m hm
    rw [h]
    simp [lookupNote, Ne.symm hm]

/-- Witness for C7 at a concrete vault: the vault holds root `0` linking to
document `1`, yet with `max_depth = 0` document `1` is not collected. -/
theorem collect_maxdepth_zero_witness :
    (1 : Nat) ≠ 0 ∧
    lookupNote (runCollect (fun n => if n = 0 then some [RefItem.note (some 1)] else none)
        0 0).collected_notes 1 = none :=
  ⟨by decide,
   (collect_maxdepth_zero (fun n => if n = 0 then some [RefItem.note (some 1)] else none)
      0).2.2 1 (by decide)⟩

/-! ## C9: a failed read during traversal is non-fatal -/

/-- C9: if the freshly reached document `note` cannot be read
(`vault note = none` models the `read_text` exception), the call returns
normally: the state is exactly the input state with `note` recorded at the
current depth (the entry made just before the read attempt is not removed, no
expansion is logged), and — second conjunct — the enclosing link loop of the
parent continues with the remaining sibling links regardless of what the
recursive call did. -/
theorem collect_read_failure (vault : Nat → Option (List RefItem))
    (maxDepth fuel note depth : Nat) (s : TraversalState)
    (rest : List RefItem) (depth' : Nat) (s' : TraversalState)
    (hread : vault note = none)
    (hguard : ∀ v, lookupNote s.collected_notes note = some v → depth < v) :
    collect_notes_recursive vault maxDepth (fuel + 1) note depth s =
      { s with collected_notes := setNote s.collected_notes note depth } ∧
    collectLinks vault maxDepth fuel (RefItem.note (some note) :: rest) depth' s' =
      collectLinks vault maxDepth fuel rest depth'
        (collect_notes_recursive vault maxDepth fuel note (depth' + 1) s') := by
  constructor
  · rw [collect_notes_recursive]
    have hskip : skipVisit (lookupNote s.collected_notes note) depth = false := by
      cases h : lookupNote s.collected_notes note with
      | none => rfl
      | some v =>
        simp only [skipVisit, decide_eq_false_iff_not, not_le]
        exact hguard v h
    rw [hskip]
    simp only [Bool.false_eq_true, if_false]
    by_cases hd : maxDepth ≤ depth
    · rw [if_pos hd]
    · rw [if_neg hd, hread]
  · rw [collectLinks]

/-- Witness for C9: document `5` is unreadable; reaching it at depth 0 with
`max_depth = 3` keeps it recorded at depth 0, and the sibling equation holds. -/
theorem collect_read_failure_witness :
    collect_notes_recursive (fun _ => none) 3 4 5 0 initState =
      { initState with collected_notes := setNote initState.collected_notes 5 0 } ∧
    collectLinks (fun _ => none) 3 3 (RefItem.note (some 5) :: [RefItem.attach (some 9)]) 0 initState =
      collectLinks (fun _ => none) 3 3 [RefItem.attach (some 9)] 0
        (collect_notes_recursive (fun _ => none) 3 3 5 1 initState) :=
  collect_read_failure (fun _ => none) 3 3 5 0 initState [RefItem.attach (some 9)] 0 initState
    rfl (by intro v h; simp [initState, lookupNote] at h)

/-! ## Invariant machinery for the traversal -/

theorem lookupNote_setNote_self (l : List (Nat × Nat)) (n d : Nat) :
    lookupNote (setNote l n d) n = some d := by
  induction l with
  | nil => simp [setNote, lookupNote]
  | cons p t ih =>
    obtain ⟨m, v⟩ := p
    by_cases h : m = n
    · subst h
      simp [setNote, lookupNote]
    · simp [setNote, lookupNote, h, ih]

theorem lookupNote_setNote_ne (l : List (Nat × Nat)) (n d m : Nat) (h : m ≠ n) :
    lookupNote (setNote l n d) m = lookupNote l m := by
  induction l with
  | nil =>
    simp only [setNote, lookupNote]
    rw [if_neg (Ne.symm h)]
  | cons p t ih =>
    obtain ⟨k, v⟩ := p
    by_cases hk : k = n
    · subst hk
      simp only [setNote, if_pos rfl, lookupNote]
      rw [if_neg (Ne.symm h), if_neg (Ne.symm h)]
    · simp only [setNote, if_neg hk, lookupNote, ih]

/-- Relation `MonoAt d s s'`: every `collected_notes` entry is either unchanged from `s`
to `s'` or was newly written/overwritten with a strictly smaller value that is
at least `d` (all writes performed by a call at depth `d` use depths `≥ d`). -/
def MonoAt (d : Nat) (s s' : TraversalState) : Prop :=
  ∀ m, lookupNote s'.collected_notes m = lookupNote s.collected_notes m ∨
    ∃ v', lookupNote s'.collected_notes m = some v' ∧ d ≤ v' ∧
      ∀ v, lookupNote s.collected_notes m = some v → v' < v

theorem monoAt_refl (d : Nat) (s : TraversalState) : MonoAt d s s :=
  fun _ => Or.inl rfl

theorem monoAt_trans {d : Nat} {s s' s'' : TraversalState}
    (h1 : MonoAt d s s') (h2 : MonoAt d s' s'') : MonoAt d s s'' := by
  intro m
  rcases h2 m with h2m | ⟨v'', hv'', hd'', hlt''⟩
  · rcases h1 m with h1m | ⟨v', hv', hd', hlt'⟩
    · exact Or.inl (h2m.trans h1m)
    · exact Or.inr ⟨v', h2m.trans hv', hd', hlt'⟩
  · rcases h1 m with h1m | ⟨v', hv', hd', hlt'⟩
    · refine Or.inr ⟨v'', hv'', hd'', ?_⟩
      intro v hv
      exact hlt'' v (h1m.trans hv)
    · refine Or.inr ⟨v'', hv'', hd'', ?_⟩
      intro v hv
      exact lt_trans (hlt'' v' hv') (hlt' v hv)

theorem monoAt_mono {d d' : Nat} {s s' : TraversalState} (h : d' ≤ d)
    (hm : MonoAt d s s') : MonoAt d' s s' := by
  intro m
  rcases hm m with h1 | ⟨v', hv', hd', hlt'⟩
  · exact Or.inl h1
  · exact Or.inr ⟨v', hv', le_trans h hd', hlt'⟩

/-- An entry whose value is at most `d` survives any state change that is
`MonoAt d`: a fresh write would have to be both `≥ d` and strictly below the
old value. -/
theorem monoAt_preserve {d : Nat} {s s' : TraversalState} (h : MonoAt d s s')
    {m v : Nat} (hv : lookupNote s.collected_notes m = some v) (hvd : v ≤ d) :
    lookupNote s'.collected_notes m = some v := by
  rcases h m with h1 | ⟨v', hv', hd', hlt'⟩
  · exact h1.trans hv
  · exact absurd (lt_of_le_of_lt (le_trans hvd hd') (hlt' v hv)) (lt_irrefl v)

/-- Relation `ClosedE vault maxD s ex`: except for the explicitly exempted pairs `ex`,
every collected document `m` whose recorded depth `v` is below `maxD` has all
of its resolved note links `c` collected at depth at most `v + 1`. -/
def ClosedE (vault : Nat → Option (List RefItem)) (maxD : Nat)
    (s : TraversalState) (ex : Nat → Nat → Prop) : Prop :=
  ∀ m v links c, lookupNote s.collected_notes m = some v → v < maxD →
    vault m = some links → RefItem.note (some c) ∈ links →
    ex m c ∨ ∃ w, lookupNote s.collected_notes c = some w ∧ w ≤ v + 1

theorem closedE_congr {vault : Nat → Option (List RefItem)} {maxD : Nat}
    {s s' : TraversalState} {ex : Nat → Nat → Prop}
    (h : s'.collected_notes = s.collected_notes)
    (hc : ClosedE vault maxD s ex) : ClosedE vault maxD s' ex := by
  intro m v links c h1 h2 h3 h4
  rw [h] at h1 ⊢
  exact hc m v links c h1 h2 h3 h4

/-! Unfolding lemmas for the four branches of `collect_notes_recursive`. -/

theorem collect_eq_skip {vault : Nat → Option (List RefItem)} {maxD : Nat}
    {fuel note depth : Nat} {s : TraversalState}
    (h : skipVisit (lookupNote s.collected_notes note) depth = true) :
    collect_notes_recursive vault maxD (fuel + 1) note depth s = s := by
  rw [collect_notes_recursive, h]
  simp

theorem collect_eq_stop {vault : Nat → Option (List RefItem)} {maxD : Nat}
    {fuel note depth : Nat} {s : TraversalState}
    (h : skipVisit (lookupNote s.collected_notes note) depth = false)
    (hd : maxD ≤ depth) :
    collect_notes_recursive vault maxD (fuel + 1) note depth s =
      { s with collected_notes := setNote s.collected_notes note depth } := by
  rw [collect_notes_recursive, h]
  simp [hd]

theorem collect_eq_unreadable {vault : Nat → Option (List RefItem)} {maxD : Nat}
    {fuel note depth : Nat} {s : TraversalState}
    (h : skipVisit (lookupNote s.collected_notes note) depth = false)
    (hd : ¬ maxD ≤ depth) (hv : vault note = none) :
    collect_notes_recursive vault maxD (fuel + 1) note depth s =
      { s with collected_notes := setNote s.collected_notes note depth } := by
  rw [collect_notes_recursive, h]
  simp [hd, hv]

theorem collect_eq_expand {vault : Nat → Option (List RefItem)} {maxD : Nat}
    {fuel note depth : Nat} {s : TraversalState} {links : List RefItem}
    (h : skipVisit (lookupNote s.collected_notes note) depth = false)
    (hd : ¬ maxD ≤ depth) (hv : vault note = some links) :
    collect_notes_recursive vault maxD (fuel + 1) note depth s =
      collectLinks vault maxD fuel links depth
        { collected_notes := setNote s.collected_notes note depth,
          collected_attachments := s.collected_attachments,
          expansions := (note, depth) :: s.expansions } := by
  rw [collect_notes_recursive, h]
  simp [hd, hv]

/-! Unfolding lemmas for the clauses of `collectLinks`. -/

theorem collectLinks_nil {vault : Nat → Option (List RefItem)} {maxD fuel depth : Nat}
    {s : TraversalState} : collectLinks vault maxD fuel [] depth s = s := by
  rw [collectLinks]

theorem collectLinks_attach_some {vault : Nat → Option (List RefItem)}
    {maxD fuel depth p : Nat} {rest : List RefItem} {s : TraversalState} :
    collectLinks vault maxD fuel (RefItem.attach (some p) :: rest) depth s =
      collectLinks vault maxD fuel rest depth
        { s with collected_attachments := addAttachment s.collected_attachments p } := by
  rw [collectLinks]

theorem collectLinks_attach_none {vault : Nat → Option (List RefItem)}
    {maxD fuel depth : Nat} {rest : List RefItem} {s : TraversalState} :
    collectLinks vault maxD fuel (RefItem.attach none :: rest) depth s =
      collectLinks vault maxD fuel rest depth s := by
  rw [collectLinks]

theorem collectLinks_note_some {vault : Nat → Option (List RefItem)}
    {maxD fuel depth c : Nat} {rest : List RefItem} {s : TraversalState} :
    collectLinks vault maxD fuel (RefItem.note (some c) :: rest) depth s =
      collectLinks vault maxD fuel rest depth
        (collect_notes_recursive vault maxD fuel c (depth + 1) s) := by
  rw [collectLinks]

theorem collectLinks_note_none {vault : Nat → Option (List RefItem)}
    {maxD fuel depth : Nat} {rest : List RefItem} {s : TraversalState} :
    collectLinks vault maxD fuel (RefItem.note none :: rest) depth s =
      collectLinks vault maxD fuel rest depth s := by
  rw [collectLinks]

theorem collectLinks_skipped {vault : Nat → Option (List RefItem)}
    {maxD fuel depth : Nat} {rest : List RefItem} {s : TraversalState} :
    collectLinks vault maxD fuel (RefItem.skipped :: rest) depth s =
      collectLinks vault maxD fuel rest depth s := by
  rw [collectLinks]

/-- Recording a note at a depth strictly below its previous entry (or absent)
only writes at that depth: a `MonoAt depth` step. -/
theorem monoAt_record {s s' : TraversalState} {note depth : Nat}
    (hset : s'.collected_notes = setNote s.collected_notes note depth)
    (hguard : ∀ v, lookupNote s.collected_notes note = some v → depth < v) :
    MonoAt depth s s' := by
  intro m
  by_cases hm : m = note
  · subst hm
    refine Or.inr ⟨depth, ?_, le_refl _, hguard⟩
    rw [hset]
    exact lookupNote_setNote_self _ _ _
  · refine Or.inl ?_
    rw [hset]
    exact lookupNote_setNote_ne _ _ _ _ hm

/-- Recording a note preserves closure provided the recorded note itself never
needs expanding (it is unreadable, or recorded at depth `≥ maxD`). -/
theorem closedE_record {vault : Nat → Option (List RefItem)} {maxD : Nat}
    {s s' : TraversalState} {note depth : Nat} {ex : Nat → Nat → Prop}
    (hset : s'.collected_notes = setNote s.collected_notes note depth)
    (hguard : ∀ v, lookupNote s.collected_notes note = some v → depth < v)
    (hcl : ClosedE vault maxD s ex)
    (hnote : ∀ links, vault note = some links → depth < maxD → False) :
    ClosedE vault maxD s' ex := by
  intro m v links c h1 h2 h3 h4
  by_cases hm : m = note
  · subst hm
    rw [hset, lookupNote_setNote_self] at h1
    injection h1 with h1
    subst h1
    exact absurd h2 (fun h2 => hnote links h3 h2)
  · rw [hset, lookupNote_setNote_ne _ _ _ _ hm] at h1
    rcases hcl m v links c h1 h2 h3 h4 with hex | ⟨w, hw, hwle⟩
    · exact Or.inl hex
    · by_cases hc : c = note
      · subst hc
        have hdw := hguard w hw
        refine Or.inr ⟨depth, ?_, by omega⟩
        rw [hset]
        exact lookupNote_setNote_self _ _ _
      · refine Or.inr ⟨w, ?_, hwle⟩
        rw [hset, lookupNote_setNote_ne _ _ _ _ hc]
        exact hw

/-- Dropping a link that is not a resolved note link from the pending-exemption
list keeps closure. -/
theorem closedE_shrink_nonnote {vault : Nat → Option (List RefItem)} {maxD : Nat}
    {s2 : TraversalState} {ex : Nat → Nat → Prop} {n0 : Nat}
    {item : RefItem} {rest : List RefItem}
    (hitem : ∀ c, item ≠ RefItem.note (some c))
    (hpre : ClosedE vault maxD s2
      (fun m c => ex m c ∨ (m = n0 ∧ RefItem.note (some c) ∈ item :: rest))) :
    ClosedE vault maxD s2
      (fun m c => ex m c ∨ (m = n0 ∧ RefItem.note (some c) ∈ rest)) := by
  intro m v links' c h1 h2 h3 h4
  rcases hpre m v links' c h1 h2 h3 h4 with (hex | ⟨he, hmem⟩) | hsat
  · exact Or.inl (Or.inl hex)
  · rcases List.mem_cons.mp hmem with hceq | hmem'
    · exact absurd hceq.symm (hitem c)
    · exact Or.inl (Or.inr ⟨he, hmem'⟩)
  · exact Or.inr hsat

theorem skipVisit_true {o : Option Nat} {depth : Nat} (h : skipVisit o depth = true) :
    ∃ d0, o = some d0 ∧ d0 ≤ depth := by
  cases o with
  | none => cases h
  | some d0 =>
    refine ⟨d0, rfl, ?_⟩
    simpa [skipVisit] using h

theorem skipVisit_false {o : Option Nat} {depth : Nat} (h : skipVisit o depth = false) :
    ∀ v, o = some v → depth < v := by
  intro v hv
  subst hv
  simpa [skipVisit] using h

/-- Main invariant of the traversal, by induction on the fuel.  For a call at
`depth` with sufficient fuel: closure (with any exemption set) is preserved,
all writes are `MonoAt depth`, and the visited note ends up recorded at depth
at most `depth`.  The companion statement handles the link loop, which must
re-establish closure for the parent note `n0` (recorded at `depth`) as its
pending links shrink. -/
theorem collect_main_spec (vault : Nat → Option (List RefItem)) (maxD : Nat) :
    ∀ fuel : Nat,
    (∀ note depth s (ex : Nat → Nat → Prop), maxD + 1 ≤ fuel + depth → depth ≤ maxD →
      ClosedE vault maxD s ex →
      ClosedE vault maxD (collect_notes_recursive vault maxD fuel note depth s) ex ∧
      MonoAt depth s (collect_notes_recursive vault maxD fuel note depth s) ∧
      ∃ w, lookupNote (collect_notes_recursive vault maxD fuel note depth s).collected_notes note
            = some w ∧ w ≤ depth) ∧
    (∀ links depth s (ex : Nat → Nat → Prop) n0, maxD + 1 ≤ fuel + depth + 1 →
      depth + 1 ≤ maxD →
      lookupNote s.collected_notes n0 = some depth →
      ClosedE vault maxD s (fun m c => ex m c ∨ (m = n0 ∧ RefItem.note (some c) ∈ links)) →
      ClosedE vault maxD (collectLinks vault maxD fuel links depth s) ex ∧
      MonoAt (depth + 1) s (collectLinks vault maxD fuel links depth s)) := by
  intro fuel
  induction fuel with
  | zero =>
    constructor
    · intro note depth s ex hb hd _
      omega
    · intro links depth s ex n0 hb hd _ _
      omega
  | succ fuel ih =>
    have hP : ∀ note depth s (ex : Nat → Nat → Prop), maxD + 1 ≤ (fuel + 1) + depth →
        depth ≤ maxD → ClosedE vault maxD s ex →
        ClosedE vault maxD (collect_notes_recursive vault maxD (fuel + 1) note depth s) ex ∧
        MonoAt depth s (collect_notes_recursive vault maxD (fuel + 1) note depth s) ∧
        ∃ w, lookupNote
              (collect_notes_recursive vault maxD (fuel + 1) note depth s).collected_notes note
            = some w ∧ w ≤ depth := by
      intro note depth s ex hb hd hcl
      cases hsk : skipVisit (lookupNote s.collected_notes note) depth with
      | true =>
        rw [collect_eq_skip hsk]
        refine ⟨hcl, monoAt_refl _ _, ?_⟩
        obtain ⟨d0, hl, hle⟩ := skipVisit_true hsk
        exact ⟨d0, hl, hle⟩
      | false =>
        have hguard : ∀ v, lookupNote s.collected_notes note = some v → depth < v :=
          skipVisit_false hsk
        by_cases hstop : maxD ≤ depth
        · rw [collect_eq_stop hsk hstop]
          refine ⟨closedE_record rfl hguard hcl (fun links _ hlt => by omega),
                  monoAt_record rfl hguard,
                  depth, lookupNote_setNote_self _ _ _, le_refl _⟩
        · cases hvv : vault note with
          | none =>
            rw [collect_eq_unreadable hsk hstop hvv]
            refine ⟨closedE_record rfl hguard hcl
                      (fun links hl _ => by rw [hvv] at hl; cases hl),
                    monoAt_record rfl hguard,
                    depth, lookupNote_setNote_self _ _ _, le_refl _⟩
          | some links0 =>
            rw [collect_eq_expand hsk hstop hvv]
            have hl2 : lookupNote (setNote s.collected_notes note depth) note = some depth :=
              lookupNote_setNote_self _ _ _
            have hpre : ClosedE vault maxD
                { collected_notes := setNote s.collected_notes note depth,
                  collected_attachments := s.collected_attachments,
                  expansions := (note, depth) :: s.expansions }
                (fun m c => ex m c ∨ (m = note ∧ RefItem.note (some c) ∈ links0)) := by
              intro m v links c h1 h2 h3 h4
              by_cases hm : m = note
              · subst hm
                rw [hvv] at h3
                injection h3 with h3
                subst h3
                exact Or.inl (Or.inr ⟨rfl, h4⟩)
              · have h1' : lookupNote (setNote s.collected_notes note depth) m = some v := h1
                rw [lookupNote_setNote_ne _ _ _ _ hm] at h1'
                rcases hcl m v links c h1' h2 h3 h4 with hex | ⟨w, hw, hwle⟩
                · exact Or.inl (Or.inl hex)
                · by_cases hc : c = note
                  · subst hc
                    have hdw := hguard w hw
                    exact Or.inr ⟨depth, hl2, by omega⟩
                  · have hw' : lookupNote (setNote s.collected_notes note depth) c = some w := by
                      rw [lookupNote_setNote_ne _ _ _ _ hc]
                      exact hw
                    exact Or.inr ⟨w, hw', hwle⟩
            obtain ⟨hcf, hmf⟩ := ih.2 links0 depth
              { collected_notes := setNote s.collected_notes note depth,
                collected_attachments := s.collected_attachments,
                expansions := (note, depth) :: s.expansions }
              ex note (by omega) (by omega) hl2 hpre
            refine ⟨hcf, ?_, ?_⟩
            · exact monoAt_trans (monoAt_record rfl hguard)
                (monoAt_mono (Nat.le_succ depth) hmf)
            · exact ⟨depth, monoAt_preserve hmf hl2 (Nat.le_succ depth), le_refl _⟩
    refine ⟨hP, ?_⟩
    intro links
    induction links with
    | nil =>
      intro depth s ex n0 hb hd hl0 hpre
      rw [collectLinks_nil]
      refine ⟨?_, monoAt_refl _ _⟩
      intro m v links' c h1 h2 h3 h4
      rcases hpre m v links' c h1 h2 h3 h4 with (hex | ⟨_, hmem⟩) | hsat
      · exact Or.inl hex
      · cases hmem
      · exact Or.inr hsat
    | cons item rest ihr =>
      intro depth s ex n0 hb hd hl0 hpre
      cases item with
      | attach res =>
        cases res with
        | some p =>
          rw [collectLinks_attach_some]
          exact ihr depth _ ex n0 hb hd hl0
            (closedE_shrink_nonnote (fun c h => RefItem.noConfusion h) hpre)
        | none =>
          rw [collectLinks_attach_none]
          exact ihr depth s ex n0 hb hd hl0
            (closedE_shrink_nonnote (fun c h => RefItem.noConfusion h) hpre)
      | skipped =>
        rw [collectLinks_skipped]
        exact ihr depth s ex n0 hb hd hl0
          (closedE_shrink_nonnote (fun c h => RefItem.noConfusion h) hpre)
      | note res =>
        cases res with
        | none =>
          rw [collectLinks_note_none]
          refine ihr depth s ex n0 hb hd hl0 (closedE_shrink_nonnote ?_ hpre)
          intro c h
          injection h with h2
          exact Option.noConfusion h2
        | some child =>
          rw [collectLinks_note_some]
          obtain ⟨hc1, hm1, w, hw, hwle⟩ := hP child (depth + 1) s
            (fun m c' => ex m c' ∨
              (m = n0 ∧ RefItem.note (some c') ∈ RefItem.note (some child) :: rest))
            (by omega) hd hpre
          have hl2 : lookupNote
              (collect_notes_recursive vault maxD (fuel + 1) child
                (depth + 1) s).collected_notes n0 = some depth :=
            monoAt_preserve hm1 hl0 (Nat.le_succ depth)
          have hpre2 : ClosedE vault maxD
              (collect_notes_recursive vault maxD (fuel + 1) child (depth + 1) s)
              (fun m c' => ex m c' ∨ (m = n0 ∧ RefItem.note (some c') ∈ rest)) := by
            intro m v links' c' h1 h2 h3 h4
            rcases hc1 m v links' c' h1 h2 h3 h4 with (hex | ⟨he, hmem⟩) | hsat
            · exact Or.inl (Or.inl hex)
            · rcases List.mem_cons.mp hmem with hceq | hmem'
              · have hcc : c' = child := by
                  injection hceq with h5
                  injection h5 with h6
                subst hcc
                subst he
                rw [hl2] at h1
                injection h1 with h1
                subst h1
                exact Or.inr ⟨w, hw, hwle⟩
              · exact Or.inl (Or.inr ⟨he, hmem'⟩)
            · exact Or.inr hsat
          obtain ⟨hcf, hmf⟩ := ihr depth _ ex n0 hb hd hl2 hpre2
          exact ⟨hcf, monoAt_trans hm1 hmf⟩

theorem collect_fuel_zero {vault : Nat → Option (List RefItem)} {maxD note depth : Nat}
    {s : TraversalState} : collect_notes_recursive vault maxD 0 note depth s = s := by
  rw [collect_notes_recursive]

/-- Relation `SoundFor vault root s`: every recorded depth is the length of some actual
reference path from `root`. -/
def SoundFor (vault : Nat → Option (List RefItem)) (root : Nat) (s : TraversalState) : Prop :=
  ∀ m v, lookupNote s.collected_notes m = some v → RefPath vault root m v

/-- The link loop preserves soundness, given that the recursive calls do and
that every resolved note link in the list is reachable at `depth + 1`. -/
theorem collectLinks_sound_of (vault : Nat → Option (List RefItem)) (maxD fuel : Nat)
    (hP : ∀ root note depth s, RefPath vault root note depth → SoundFor vault root s →
      SoundFor vault root (collect_notes_recursive vault maxD fuel note depth s)) :
    ∀ root links depth s,
      (∀ c, RefItem.note (some c) ∈ links → RefPath vault root c (depth + 1)) →
      SoundFor vault root s →
      SoundFor vault root (collectLinks vault maxD fuel links depth s) := by
  intro root links
  induction links with
  | nil =>
    intro depth s _ hs
    rw [collectLinks_nil]
    exact hs
  | cons item rest ihr =>
    intro depth s hch hs
    cases item with
    | attach res =>
      cases res with
      | some p =>
        rw [collectLinks_attach_some]
        exact ihr depth _ (fun c hc => hch c (List.mem_cons_of_mem _ hc)) hs
      | none =>
        rw [collectLinks_attach_none]
        exact ihr depth s (fun c hc => hch c (List.mem_cons_of_mem _ hc)) hs
    | skipped =>
      rw [collectLinks_skipped]
      exact ihr depth s (fun c hc => hch c (List.mem_cons_of_mem _ hc)) hs
    | note res =>
      cases res with
      | none =>
        rw [collectLinks_note_none]
        exact ihr depth s (fun c hc => hch c (List.mem_cons_of_mem _ hc)) hs
      | some child =>
        rw [collectLinks_note_some]
        exact ihr depth _ (fun c hc => hch c (List.mem_cons_of_mem _ hc))
          (hP root child (depth + 1) s (hch child (List.mem_cons_self _ _)) hs)

/-- Soundness of the traversal: starting from a state whose entries are all
path lengths from `root`, and visiting a note reachable in `depth` hops, the
result state again records only path lengths. -/
theorem collect_sound (vault : Nat → Option (List RefItem)) (maxD : Nat) :
    ∀ fuel root note depth s, RefPath vault root note depth → SoundFor vault root s →
      SoundFor vault root (collect_notes_recursive vault maxD fuel note depth s) := by
  intro fuel
  induction fuel with
  | zero =>
    intro root note depth s _ hs
    rw [collect_fuel_zero]
    exact hs
  | succ fuel ih =>
    intro root note depth s hpath hs
    cases hsk : skipVisit (lookupNote s.collected_notes note) depth with
    | true =>
      rw [collect_eq_skip hsk]
      exact hs
    | false =>
      have hs1 : ∀ s' : TraversalState,
          s'.collected_notes = setNote s.collected_notes note depth →
          SoundFor vault root s' := by
        intro s' hset m v h
        have h' : lookupNote (setNote s.collected_notes note depth) m = some v := by
          rw [← hset]
          exact h
        by_cases hm : m = note
        · subst hm
          rw [lookupNote_setNote_self] at h'
          injection h' with h'
          subst h'
          exact hpath
        · rw [lookupNote_setNote_ne _ _ _ _ hm] at h'
          exact hs m v h'
      by_cases hstop : maxD ≤ depth
      · rw [collect_eq_stop hsk hstop]
        exact hs1 _ rfl
      · cases hvv : vault note with
        | none =>
          rw [collect_eq_unreadable hsk hstop hvv]
          exact hs1 _ rfl
        | some links0 =>
          rw [collect_eq_expand hsk hstop hvv]
          exact collectLinks_sound_of vault maxD fuel ih root links0 depth _
            (fun c hc => RefPath.step hpath hvv hc) (hs1 _ rfl)

/-! ## C1: every document within `max_depth` hops is collected at its
shortest-path depth -/

/-- C1: after `collect_notes_recursive(root, 0)` completes, any document `n`
reachable by a reference path of length `k ≤ max_depth` is a key of
`collected_notes`, and its recorded depth is itself the length of a reference
path from the root of length at most `k`; taking `k` to be the shortest-path
length, the recorded depth equals the shortest-path length. -/
theorem collect_notes_shortest (vault : Nat → Option (List RefItem))
    (maxD root n k : Nat) (hpath : RefPath vault root n k) (hk : k ≤ maxD) :
    ∃ v, lookupNote (runCollect vault maxD root).collected_notes n = some v ∧ v ≤ k ∧
      RefPath vault root n v := by
  have hinit : ∀ m v, lookupNote initState.collected_notes m = some v → False := by
    intro m v h
    simp [initState, lookupNote] at h
  obtain ⟨hcl, hmono, w0, hw0, hw0le⟩ :=
    (collect_main_spec vault maxD (maxD + 1)).1 root 0 initState (fun _ _ => False)
      (by omega) (by omega) (fun m v links c h1 _ _ _ => absurd h1 (fun h => hinit m v h))
  have hroot : lookupNote (runCollect vault maxD root).collected_notes root = some 0 := by
    have hz : w0 = 0 := Nat.le_zero.mp hw0le
    rw [← hz]
    exact hw0
  have hsound : SoundFor vault root (runCollect vault maxD root) :=
    collect_sound vault maxD (maxD + 1) root root 0 initState (RefPath.refl root)
      (fun m v h => absurd h (fun h' => hinit m v h'))
  have hcomp : ∀ {n' k'}, RefPath vault root n' k' → k' ≤ maxD →
      ∃ v, lookupNote (runCollect vault maxD root).collected_notes n' = some v ∧ v ≤ k' := by
    intro n' k' hp
    induction hp with
    | refl => exact fun _ => ⟨0, hroot, le_refl 0⟩
    | step hp' hread hmem ih =>
      intro hk'
      obtain ⟨v, hv, hvle⟩ := ih (Nat.le_of_succ_le hk')
      have hvlt : v < maxD := by omega
      rcases hcl _ v _ _ hv hvlt hread hmem with hfalse | ⟨w, hw, hwle⟩
      · cases hfalse
      · exact ⟨w, hw, by omega⟩
  obtain ⟨v, hv, hvle⟩ := hcomp hpath hk
  exact ⟨v, hv, hvle, hsound n v hv⟩

/-- A tiny concrete vault (`0 → 1 → 2`) used to witness C1. -/
def chainVault : Nat → Option (List RefItem) := fun m =>
  if m = 0 then some [RefItem.note (some 1)]
  else if m = 1 then some [RefItem.note (some 2)] else none

/-- Witness for C1: in a vault where root `0` links to `1` and `1` links to `2`,
with `max_depth = 2`, document `2` (two hops away) is collected at a depth that
is a path length `≤ 2`. -/
theorem collect_notes_shortest_witness :
    ∃ v, lookupNote (runCollect chainVault 2 0).collected_notes 2 = some v ∧ v ≤ 2 ∧
      RefPath chainVault 0 2 v :=
  collect_notes_shortest chainVault 2 0 2 2
    (@RefPath.step chainVault 0 1 1 2 [RefItem.note (some 2)]
      (@RefPath.step chainVault 0 0 0 1 [RefItem.note (some 1)]
        (RefPath.refl 0) rfl (by decide))
      rfl (by decide))
    (by decide)

/-! ## C4: termination and the expansion bound -/

/-- Fuel irrelevance: any two sufficient fuels give the same result, i.e. the
Python recursion (which has no fuel) is well defined and `runCollect`'s budget
`maxDepth + 1` is enough. -/
theorem collect_fuel_irrelevant (vault : Nat → Option (List RefItem)) (maxD : Nat) :
    ∀ fuel : Nat,
    (∀ fuel2 note depth s, maxD + 1 ≤ fuel + depth → maxD + 1 ≤ fuel2 + depth →
      depth ≤ maxD →
      collect_notes_recursive vault maxD fuel note depth s
        = collect_notes_recursive vault maxD fuel2 note depth s) ∧
    (∀ fuel2 links depth s, maxD + 1 ≤ fuel + depth + 1 → maxD + 1 ≤ fuel2 + depth + 1 →
      depth + 1 ≤ maxD →
      collectLinks vault maxD fuel links depth s = collectLinks vault maxD fuel2 links depth s)
    := by
  intro fuel
  induction fuel with
  | zero =>
    constructor
    · intro fuel2 note depth s h1 h2 hd
      omega
    · intro fuel2 links depth s h1 h2 hd
      omega
  | succ fuel ih =>
    have hP : ∀ fuel2 note depth s, maxD + 1 ≤ (fuel + 1) + depth →
        maxD + 1 ≤ fuel2 + depth → depth ≤ maxD →
        collect_notes_recursive vault maxD (fuel + 1) note depth s
          = collect_notes_recursive vault maxD fuel2 note depth s := by
      intro fuel2 note depth s h1 h2 hd
      cases fuel2 with
      | zero => omega
      | succ fuel2 =>
        cases hsk : skipVisit (lookupNote s.collected_notes note) depth with
        | true => rw [collect_eq_skip hsk, collect_eq_skip hsk]
        | false =>
          by_cases hstop : maxD ≤ depth
          · rw [collect_eq_stop hsk hstop, collect_eq_stop hsk hstop]
          · cases hvv : vault note with
            | none => rw [collect_eq_unreadable hsk hstop hvv,
                collect_eq_unreadable hsk hstop hvv]
            | some links0 =>
              rw [collect_eq_expand hsk hstop hvv, collect_eq_expand hsk hstop hvv]
              exact ih.2 fuel2 links0 depth _ (by omega) (by omega) (by omega)
    refine ⟨hP, ?_⟩
    intro fuel2 links
    induction links with
    | nil =>
      intro depth s h1 h2 hd
      rw [collectLinks_nil, collectLinks_nil]
    | cons item rest ihr =>
      intro depth s h1 h2 hd
      cases item with
      | attach res =>
        cases res with
        | some p =>
          rw [collectLinks_attach_some, collectLinks_attach_some]
          exact ihr depth _ h1 h2 hd
        | none =>
          rw [collectLinks_attach_none, collectLinks_attach_none]
          exact ihr depth s h1 h2 hd
      | skipped =>
        rw [collectLinks_skipped, collectLinks_skipped]
        exact ihr depth s h1 h2 hd
      | note res =>
        cases res with
        | none =>
          rw [collectLinks_note_none, collectLinks_note_none]
          exact ihr depth s h1 h2 hd
        | some child =>
          rw [collectLinks_note_some, collectLinks_note_some]
          rw [hP fuel2 child (depth + 1) s (by omega) (by omega) hd]
          exact ihr depth _ h1 h2 hd

/-- The depths at which document `n` was expanded, most recent first. -/
def expDepths (tr : List (Nat × Nat)) (n : Nat) : List Nat :=
  tr.filterMap (fun p => if p.1 = n then some p.2 else none)

/-- Invariant tying the expansion log to the collected depths: per document the
logged depths (most recent first) are strictly increasing — i.e. strictly
decreasing chronologically — each is below `max_depth`, and the currently
recorded depth is at most every logged depth. -/
def ExpInv (maxD : Nat) (s : TraversalState) : Prop :=
  ∀ n, List.Chain' (· < ·) (expDepths s.expansions n) ∧
    ∀ d' ∈ expDepths s.expansions n,
      d' < maxD ∧ ∃ v, lookupNote s.collected_notes n = some v ∧ v ≤ d'

theorem expInv_record {maxD : Nat} {s s' : TraversalState} {note depth : Nat}
    (hset : s'.collected_notes = setNote s.collected_notes note depth)
    (hexp : s'.expansions = s.expansions)
    (hguard : ∀ v, lookupNote s.collected_notes note = some v → depth < v)
    (hinv : ExpInv maxD s) : ExpInv maxD s' := by
  intro n
  rw [hexp]
  refine ⟨(hinv n).1, ?_⟩
  intro d' hd'
  obtain ⟨hlt, v, hv, hvle⟩ := (hinv n).2 d' hd'
  refine ⟨hlt, ?_⟩
  by_cases hn : n = note
  · subst hn
    have hdv := hguard v hv
    refine ⟨depth, ?_, by omega⟩
    rw [hset]
    exact lookupNote_setNote_self _ _ _
  · refine ⟨v, ?_, hvle⟩
    rw [hset, lookupNote_setNote_ne _ _ _ _ hn]
    exact hv

theorem expInv_expand {maxD : Nat} {s s' : TraversalState} {note depth : Nat}
    (hset : s'.collected_notes = setNote s.collected_notes note depth)
    (hexp : s'.expansions = (note, depth) :: s.expansions)
    (hguard : ∀ v, lookupNote s.collected_notes note = some v → depth < v)
    (hdlt : depth < maxD)
    (hinv : ExpInv maxD s) : ExpInv maxD s' := by
  intro n
  by_cases hn : n = note
  · subst hn
    have hkey : expDepths s'.expansions n = depth :: expDepths s.expansions n := by
      rw [hexp]
      simp [expDepths, List.filterMap_cons]
    have hall : ∀ d' ∈ expDepths s.expansions n, depth < d' := by
      intro d' hd'
      obtain ⟨_, v, hv, hvle⟩ := (hinv n).2 d' hd'
      have := hguard v hv
      omega
    constructor
    · rw [hkey]
      refine List.chain'_cons'.mpr ⟨?_, (hinv n).1⟩
      intro b hb
      exact hall b (List.mem_of_mem_head? hb)
    · intro d' hd'
      rw [hkey] at hd'
      rcases List.mem_cons.mp hd' with heq | hd''
      · rw [heq]
        refine ⟨hdlt, depth, ?_, le_refl _⟩
        rw [hset]
        exact lookupNote_setNote_self _ _ _
      · obtain ⟨hlt, v, hv, hvle⟩ := (hinv n).2 d' hd''
        have := hguard v hv
        refine ⟨hlt, depth, ?_, by omega⟩
        rw [hset]
        exact lookupNote_setNote_self _ _ _
  · have hkey : expDepths s'.expansions n = expDepths s.expansions n := by
      rw [hexp]
      simp [expDepths, List.filterMap_cons, Ne.symm hn]
    rw [hkey]
    refine ⟨(hinv n).1, ?_⟩
    intro d' hd'
    obtain ⟨hlt, v, hv, hvle⟩ := (hinv n).2 d' hd'
    refine ⟨hlt, v, ?_, hvle⟩
    rw [hset, lookupNote_setNote_ne _ _ _ _ hn]
    exact hv

/-- The expansion invariant is preserved by the traversal. -/
theorem collect_expinv (vault : Nat → Option (List RefItem)) (maxD : Nat) :
    ∀ fuel : Nat,
    (∀ note depth s, ExpInv maxD s →
      ExpInv maxD (collect_notes_recursive vault maxD fuel note depth s)) ∧
    (∀ links depth s, ExpInv maxD s →
      ExpInv maxD (collectLinks vault maxD fuel links depth s)) := by
  intro fuel
  induction fuel with
  | zero =>
    constructor
    · intro note depth s hinv
      rw [collect_fuel_zero]
      exact hinv
    · intro links
      induction links with
      | nil =>
        intro depth s hinv
        rw [collectLinks_nil]
        exact hinv
      | cons item rest ihr =>
        intro depth s hinv
        cases item with
        | attach res =>
          cases res with
          | some p =>
            rw [collectLinks_attach_some]
            exact ihr depth _ hinv
          | none =>
            rw [collectLinks_attach_none]
            exact ihr depth s hinv
        | skipped =>
          rw [collectLinks_skipped]
          exact ihr depth s hinv
        | note res =>
          cases res with
          | none =>
            rw [collectLinks_note_none]
            exact ihr depth s hinv
          | some child =>
            rw [collectLinks_note_some, collect_fuel_zero]
            exact ihr depth s hinv
  | succ fuel ih =>
    have hP : ∀ note depth s, ExpInv maxD s →
        ExpInv maxD (collect_notes_recursive vault maxD (fuel + 1) note depth s) := by
      intro note depth s hinv
      cases hsk : skipVisit (lookupNote s.collected_notes note) depth with
      | true =>
        rw [collect_eq_skip hsk]
        exact hinv
      | false =>
        have hguard := skipVisit_false hsk
        by_cases hstop : maxD ≤ depth
        · rw [collect_eq_stop hsk hstop]
          exact expInv_record rfl rfl hguard hinv
        · cases hvv : vault note with
          | none =>
            rw [collect_eq_unreadable hsk hstop hvv]
            exact expInv_record rfl rfl hguard hinv
          | some links0 =>
            rw [collect_eq_expand hsk hstop hvv]
            exact ih.2 links0 depth _
              (expInv_expand rfl rfl hguard (by omega) hinv)
    refine ⟨hP, ?_⟩
    intro links
    induction links with
    | nil =>
      intro depth s hinv
      rw [collectLinks_nil]
      exact hinv
    | cons item rest ihr =>
      intro depth s hinv
      cases item with
      | attach res =>
        cases res with
        | some p =>
          rw [collectLinks_attach_some]
          exact ihr depth _ hinv
        | none =>
          rw [collectLinks_attach_none]
          exact ihr depth s hinv
      | skipped =>
        rw [collectLinks_skipped]
        exact ihr depth s hinv
      | note res =>
        cases res with
        | none =>
          rw [collectLinks_note_none]
          exact ihr depth s hinv
        | some child =>
          rw [collectLinks_note_some]
          exact ihr depth _ (hP child (depth + 1) s hinv)

theorem chain_lt_length_aux (M : Nat) : ∀ (l : List Nat) (a : Nat),
    List.Chain' (· < ·) (a :: l) → (∀ x ∈ a :: l, x ≤ M) →
    a + (a :: l).length ≤ M + 1 := by
  intro l
  induction l with
  | nil =>
    intro a _ hM
    have := hM a (List.mem_cons_self _ _)
    simp only [List.length_cons, List.length_nil]
    omega
  | cons b t ih =>
    intro a hch hM
    have hab : a < b := (List.chain'_cons.mp hch).1
    have h2 := ih b (List.chain'_cons.mp hch).2 (fun x hx => hM x (List.mem_cons_of_mem _ hx))
    simp only [List.length_cons] at h2 ⊢
    omega

theorem chain_lt_length (l : List Nat) (M : Nat) (hch : List.Chain' (· < ·) l)
    (hM : ∀ x ∈ l, x ≤ M) : l.length ≤ M + 1 := by
  cases l with
  | nil => simp
  | cons a t =>
    have := chain_lt_length_aux M t a hch hM
    omega

/-- C4: for every vault — cyclic reference graphs included — and every
`max_depth`, `collect_notes_recursive` terminates: every recursion budget of at
least `max_depth + 1` produces the same final state, so the recursion depth is
bounded independently of the vault.  Moreover each document is expanded (its
references followed) at most `max_depth + 1` times, and the successive
expansion depths of one document are strictly decreasing chronologically (the
log is most-recent-first, so it is strictly increasing as a list): a document
is re-expanded only when reached strictly shallower than every depth at which
it was previously expanded, never at the same or a deeper depth. -/
theorem collect_notes_terminates (vault : Nat → Option (List RefItem)) (maxD root : Nat) :
    (∀ fuel, maxD + 1 ≤ fuel →
      collect_notes_recursive vault maxD fuel root 0 initState = runCollect vault maxD root) ∧
    ∀ n, List.Chain' (· < ·) (expDepths (runCollect vault maxD root).expansions n) ∧
      (expDepths (runCollect vault maxD root).expansions n).length ≤ maxD + 1 := by
  constructor
  · intro fuel hf
    exact (collect_fuel_irrelevant vault maxD fuel).1 (maxD + 1) root 0 initState
      (by omega) (by omega) (by omega)
  · intro n
    have hinv : ExpInv maxD (runCollect vault maxD root) :=
      (collect_expinv vault maxD (maxD + 1)).1 root 0 initState
        (by
          intro n'
          constructor
          · simp [initState, expDepths]
          · intro d' hd'
            simp [initState, expDepths] at hd')
    refine ⟨(hinv n).1, chain_lt_length _ maxD (hinv n).1 ?_⟩
    intro x hx
    exact le_of_lt ((hinv n).2 x hx).1

/-- A two-document cycle (`0 ↔ 1`) used to witness C4. -/
def cycleVault : Nat → Option (List RefItem) := fun m =>
  if m = 0 then some [RefItem.note (some 1)]
  else if m = 1 then some [RefItem.note (some 0)] else none

/-- Witness for C4 on a cyclic vault: fuel 99 and fuel `maxDepth + 1 = 6` agree,
and the expansion log of document `0` is strictly increasing and short. -/
theorem collect_notes_terminates_witness :
    collect_notes_recursive cycleVault 5 99 0 0 initState = runCollect cycleVault 5 0 ∧
    List.Chain' (· < ·) (expDepths (runCollect cycleVault 5 0).expansions 0) ∧
    (expDepths (runCollect cycleVault 5 0).expansions 0).length ≤ 6 :=
  ⟨(collect_notes_terminates cycleVault 5 0).1 99 (by omega),
   ((collect_notes_terminates cycleVault 5 0).2 0).1,
   ((collect_notes_terminates cycleVault 5 0).2 0).2⟩

/-! ## Membership lemmas shared by the export pass.  The export model itself
needs `convert_to_standard_markdown` and is defined after the string layer
below; only the pieces independent of it live here. -/

/-- The summary dictionary returned by `export` (lines 346-351). -/
structure ExportStats where
  notes_collected : Nat
  notes_exported : Nat
  attachments_collected : Nat
  attachments_exported : Nat
deriving DecidableEq

theorem mem_addAttachment_self (a : List Nat) (p : Nat) : p ∈ addAttachment a p := by
  rw [addAttachment]
  split
  · assumption
  · exact List.mem_cons_self _ _

theorem mem_addAttachment_of_mem {a : List Nat} {q : Nat} (p : Nat) (h : q ∈ a) :
    q ∈ addAttachment a p := by
  rw [addAttachment]
  split
  · exact h
  · exact List.mem_cons_of_mem _ h

theorem lookupNote_mem_keys : ∀ {l : List (Nat × Nat)} {n d : Nat},
    lookupNote l n = some d → n ∈ l.map Prod.fst := by
  intro l
  induction l with
  | nil => intro n d h; cases h
  | cons e t ih =>
    intro n d h
    obtain ⟨m, v⟩ := e
    rw [lookupNote] at h
    by_cases hm : m = n
    · rw [List.map_cons, hm]
      exact List.mem_cons_self _ _
    · rw [if_neg hm] at h
      exact List.mem_cons_of_mem _ (ih h)

/-! ## String layer: `convert_to_standard_markdown` and `extract_links`

Python strings are `List Char`.  The three compiled patterns are implemented
as deterministic left-to-right scanners.  This is exactly Python's
backtracking semantics for these particular patterns: every quantified
character class (`[^\]|]`, `[^\]]`, lazy `.`) excludes the characters that the
pattern's continuation starts with, so greedy maximal munch (resp. lazy
earliest close) never needs revisiting, and `finditer`/`sub` try each start
position left to right, resuming after the end of each match.  The scanners
take an explicit fuel (one unit per start position tried); `length l` units
are always enough since every step consumes at least one character. -/

/-- Find the earliest `%%` in `l`: returns the text before it and the text
after it (the lazy `.*?` of `COMMENT_PATTERN` plus its closing `%%`). -/
def findClose : List Char → Option (List Char × List Char)
  | [] => none
  | c1 :: rest =>
    match rest with
    | [] => none
    | c2 :: rest2 =>
      if c1 = '%' ∧ c2 = '%' then some ([], rest2)
      else
        match findClose rest with
        | some (i, r) => some (c1 :: i, r)
        | none => none

/-- Does `l` contain two adjacent `'%'` characters? -/
def hasPP : List Char → Bool
  | [] => false
  | c1 :: rest =>
    match rest with
    | [] => false
    | c2 :: _ => if c1 = '%' ∧ c2 = '%' then true else hasPP rest

/-- Does `COMMENT_PATTERN` match anywhere in `l` (an opener `%%` with a later
closing `%%`)? -/
def hasCommentPair : List Char → Bool
  | [] => false
  | c1 :: rest =>
    match rest with
    | [] => false
    | c2 :: rest2 =>
      if c1 = '%' ∧ c2 = '%' then hasPP rest2 else hasCommentPair rest

/-- Model of `COMMENT_PATTERN.sub('', content)` (exporter.py line 167): at each
position, an opener `%%` with a closing `%%` later deletes everything through
the earliest closer; otherwise the character is kept and scanning moves on by
one. -/
def stripCommentsF : Nat → List Char → List Char
  | 0, l => l
  | _ + 1, [] => []
  | fuel + 1, c1 :: rest =>
    match rest with
    | [] => [c1]
    | c2 :: rest2 =>
      if c1 = '%' ∧ c2 = '%' then
        match findClose rest2 with
        | some (_, r) => stripCommentsF fuel r
        | none => c1 :: stripCommentsF fuel rest
      else c1 :: stripCommentsF fuel rest

def stripComments (l : List Char) : List Char := stripCommentsF l.length l

/-- Attempt `WIKILINK_PATTERN = \[\[([^\]|]+)(?:\|([^\]]+))?\]\]` at the start
of `s`; on success return the two capture groups and the remainder after the
match.  Greedy classes are maximal munch; if the piped branch of the optional
group fails, the unpiped branch necessarily fails too (the continuation `]]`
cannot match at a `|`), hence no backtracking. -/
def matchWiki (s : List Char) : Option ((List Char × Option (List Char)) × List Char) :=
  match s with
  | '[' :: '[' :: s1 =>
    let g1 := s1.takeWhile (fun c => decide (c ≠ ']' ∧ c ≠ '|'))
    let r1 := s1.dropWhile (fun c => decide (c ≠ ']' ∧ c ≠ '|'))
    if g1 = [] then none
    else
      match r1 with
      | '|' :: r2 =>
        let g2 := r2.takeWhile (fun c => decide (c ≠ ']'))
        let r3 := r2.dropWhile (fun c => decide (c ≠ ']'))
        if g2 = [] then none
        else
          match r3 with
          | ']' :: ']' :: r4 => some ((g1, some g2), r4)
          | _ => none
      | ']' :: ']' :: r2 => some ((g1, none), r2)
      | _ => none
  | _ => none

/-- Scanner driving `WIKILINK_PATTERN.sub` / `finditer`, with replacement callback `f`. -/
def wikiScanF (f : List Char × Option (List Char) → List Char) :
    Nat → List Char → List Char
  | 0, l => l
  | _ + 1, [] => []
  | fuel + 1, c :: rest =>
    match matchWiki (c :: rest) with
    | some gr => f gr.1 ++ wikiScanF f fuel gr.2
    | none => c :: wikiScanF f fuel rest

def wikiSub (f : List Char × Option (List Char) → List Char) (l : List Char) : List Char :=
  wikiScanF f l.length l

/-- Scanner driving `EMBED_PATTERN.sub` / `finditer`: the embed pattern is `!` followed
by the wiki-link pattern. -/
def embedScanF (f : List Char × Option (List Char) → List Char) :
    Nat → List Char → List Char
  | 0, l => l
  | _ + 1, [] => []
  | fuel + 1, c :: rest =>
    if c = '!' then
      match matchWiki rest with
      | some gr => f gr.1 ++ embedScanF f fuel gr.2
      | none => c :: embedScanF f fuel rest
    else c :: embedScanF f fuel rest

def embedSub (f : List Char × Option (List Char) → List Char) (l : List Char) : List Char :=
  embedScanF f l.length l

/-- The matches found by `WIKILINK_PATTERN.finditer`, in source order. -/
def wikiMatchListF : Nat → List Char → List (List Char × Option (List Char))
  | 0, _ => []
  | _ + 1, [] => []
  | fuel + 1, c :: rest =>
    match matchWiki (c :: rest) with
    | some gr => gr.1 :: wikiMatchListF fuel gr.2
    | none => wikiMatchListF fuel rest

def wikiMatchList (l : List Char) : List (List Char × Option (List Char)) :=
  wikiMatchListF l.length l

/-- The matches found by `EMBED_PATTERN.finditer`, in source order. -/
def embedMatchListF : Nat → List Char → List (List Char × Option (List Char))
  | 0, _ => []
  | _ + 1, [] => []
  | fuel + 1, c :: rest =>
    if c = '!' then
      match matchWiki rest with
      | some gr => gr.1 :: embedMatchListF fuel gr.2
      | none => embedMatchListF fuel rest
    else embedMatchListF fuel rest

def embedMatchList (l : List Char) : List (List Char × Option (List Char)) :=
  embedMatchListF l.length l

/-- Model of `extract_links` (exporter.py lines 130-154): all embed matches first, then
all wiki-link matches, each `(target, alias, is_embed)`. -/
def extract_links (content : List Char) : List (List Char × Option (List Char) × Bool) :=
  (embedMatchList content).map (fun g => (g.1, g.2, true)) ++
    (wikiMatchList content).map (fun g => (g.1, g.2, false))

/-! `pathlib.PurePosixPath` fragments used by the rewrite callbacks. -/

/-- Split on `'/'` (always returns at least one component). -/
def splitSlash : List Char → List (List Char)
  | [] => [[]]
  | c :: rest =>
    match splitSlash rest with
    | h :: t => if c = '/' then [] :: h :: t else (c :: h) :: t
    | [] => [[c]]

/-- Model of `Path(l).name`: the last path component, with empty components and `.`
collapsed away as pathlib does. -/
def pathName (l : List Char) : List Char :=
  (((splitSlash l).filter (fun c => decide (c ≠ [] ∧ c ≠ ['.']))).getLast?).getD []

/-- Index of the last `'.'` in a list, if any. -/
def rfindDot : List Char → Option Nat
  | [] => none
  | c :: t =>
    match rfindDot t with
    | some i => some (i + 1)
    | none => if c = '.' then some 0 else none

/-- Model of `Path(l).suffix`: pathlib keeps the extension only when the last dot of
the name is neither at index 0 nor the final character. -/
def pathSuffix (l : List Char) : List Char :=
  let n := pathName l
  match rfindDot n with
  | some i => if 0 < i ∧ i + 1 < n.length then n.drop i else []
  | none => []

/-- Model of `Path(l).stem`. -/
def pathStem (l : List Char) : List Char :=
  let n := pathName l
  match rfindDot n with
  | some i => if 0 < i ∧ i + 1 < n.length then n.take i else n
  | none => n

def lowerStr (l : List Char) : List Char := l.map Char.toLower

def IMAGE_EXTENSIONS : List (List Char) :=
  [".png".toList, ".jpg".toList, ".jpeg".toList, ".gif".toList, ".svg".toList,
    ".webp".toList, ".bmp".toList]

def DOCUMENT_EXTENSIONS : List (List Char) :=
  [".pdf".toList, ".doc".toList, ".docx".toList, ".xls".toList, ".xlsx".toList,
    ".ppt".toList, ".pptx".toList]

def MEDIA_EXTENSIONS : List (List Char) :=
  [".mp3".toList, ".wav".toList, ".mp4".toList, ".webm".toList, ".ogg".toList]

def ATTACHMENT_EXTENSIONS : List (List Char) :=
  IMAGE_EXTENSIONS ++ DOCUMENT_EXTENSIONS ++ MEDIA_EXTENSIONS

/-- Model of `is_attachment` (lines 104-115). -/
def is_attachment (filename : List Char) : Bool :=
  ATTACHMENT_EXTENSIONS.contains (lowerStr (pathSuffix filename))

/-- Model of `is_image` (lines 117-128). -/
def is_image (filename : List Char) : Bool :=
  IMAGE_EXTENSIONS.contains (lowerStr (pathSuffix filename))

/-- Model of `target.split('#')[0]`. -/
def splitHash (target : List Char) : List Char :=
  target.takeWhile (fun c => decide (c ≠ '#'))

/-- Model of `replace_embed` (lines 170-198), text part. -/
def replace_embed (g : List Char × Option (List Char)) : List Char :=
  let target := g.1
  let aliasArg := g.2
  let filename := splitHash target
  if is_attachment filename then
    let output_filename := pathName filename
    if is_image filename then
      '!' :: '[' :: (aliasArg.getD (pathStem filename)) ++ ']' :: '(' :: output_filename ++ [')']
    else
      '[' :: (aliasArg.getD (pathName filename)) ++ ']' :: '(' :: output_filename ++ [')']
  else
    '[' :: (aliasArg.getD target) ++ ']' :: '(' :: (pathStem filename ++ ".md".toList) ++ [')']

/-- Model of `replace_wikilink` (lines 203-221), text part. -/
def replace_wikilink (g : List Char × Option (List Char)) : List Char :=
  let target := g.1
  let aliasArg := g.2
  let filename := splitHash target
  let link_text := aliasArg.getD target
  if is_attachment filename then
    '[' :: link_text ++ ']' :: '(' :: pathName filename ++ [')']
  else
    '[' :: link_text ++ ']' :: '(' ::
      (if filename.isEmpty then target else pathStem filename ++ ".md".toList) ++ [')']

/-- Model of `convert_to_standard_markdown` (lines 156-225): strip comments, substitute
embeds, then substitute wiki-links. -/
def convert_to_standard_markdown (content : List Char) : List Char :=
  wikiSub replace_wikilink (embedSub replace_embed (stripComments content))

/-! ## The export pass (exporter.py lines 272-358)

The note-export loop re-reads every collected document and converts it; the
conversion's rewrite callbacks are what add attachments for documents the
traversal never read (those recorded at exactly `max_depth`).  The callbacks
run on the comment-stripped text (line 167 precedes both `sub` passes) and
use the filename `target.split('#')[0]` without `.strip()` (lines 175, 208),
unlike the traversal loop (line 257), so the two pipelines can disagree on
which references they see. -/

/-- Python `str.strip()`: drop leading and trailing whitespace. -/
def stripStr (l : List Char) : List Char :=
  ((l.dropWhile Char.isWhitespace).reverse.dropWhile Char.isWhitespace).reverse

/-- The preprocessing the traversal loop applies to each `extract_links`
entry (lines 255-261): split on `'#'`, strip whitespace, skip if empty,
classify by extension and resolve.  `resolveA` abstracts
`find_attachment_file` and `resolveN` abstracts `find_note_file`, both
deterministic within a run. -/
def refsOfText (resolveA resolveN : List Char → Option Nat) (content : List Char) :
    List RefItem :=
  (extract_links content).map (fun e =>
    let filename := stripStr (splitHash e.1)
    if filename = [] then RefItem.skipped
    else if is_attachment filename then RefItem.attach (resolveA filename)
    else RefItem.note (resolveN filename))

/-- The reference lists the traversal sees over a vault of document texts:
reading document `n` (line 248) then running `extract_links` and the loop
preprocessing; an unreadable document stays `none`. -/
def textVault (tvault : Nat → Option (List Char))
    (resolveA resolveN : List Char → Option Nat) : Nat → Option (List RefItem) :=
  fun n => (tvault n).map (refsOfText resolveA resolveN)

/-- The attachment recorded by one rewrite callback: `replace_embed`
(lines 177-181) and `replace_wikilink` (lines 211-215) both add
`find_attachment_file(filename)` to `collected_attachments` when
`is_attachment(filename)` holds and the lookup succeeds, where `filename` is
`target.split('#')[0]` with no whitespace stripping. -/
def refAttachment (resolveA : List Char → Option Nat)
    (g : List Char × Option (List Char)) : Option Nat :=
  let filename := splitHash g.1
  if is_attachment filename then resolveA filename else none

/-- All attachment paths `convert_to_standard_markdown` records for one
document, in callback order: the embed pass runs on the comment-stripped
text (lines 167 and 200), the wiki pass on the embed-substituted result of
that text (line 223). -/
def convertAttachments (resolveA : List Char → Option Nat) (content : List Char) :
    List Nat :=
  ((embedMatchList (stripComments content)).filterMap (refAttachment resolveA)) ++
    ((wikiMatchList (embedSub replace_embed (stripComments content))).filterMap
      (refAttachment resolveA))

/-- One iteration of the note-export loop (lines 304-324) as far as shared
state goes: read the note (a failed read skips it, line 323) and convert it,
adding each attachment it records to `collected_attachments` in order. -/
def exportStep (tvault : Nat → Option (List Char)) (resolveA : List Char → Option Nat)
    (a : List Nat) (n : Nat) : List Nat :=
  match tvault n with
  | none => a
  | some txt => (convertAttachments resolveA txt).foldl addAttachment a

/-- The full note-export loop: every key of `collected_notes` (in dict
insertion order) is read and converted, growing `collected_attachments`; the
attachment copy loop (lines 326-344) then iterates over exactly this final
set. -/
def exportPass (tvault : Nat → Option (List Char)) (resolveA : List Char → Option Nat)
    (s : TraversalState) : List Nat :=
  (s.collected_notes.map Prod.fst).foldl (exportStep tvault resolveA) s.collected_attachments

/-- Model of `export(moc_path)` (lines 272-358).  Here `resolve` abstracts
`find_note_file` applied to the selector (vault-relative path with default
`.md` extension, then filename-index lookup) and `direct` the fallback
`vault_path / moc_path` existence check.  Only the root-resolution failure
raises (`FileNotFoundError`, line 288); read failures during the note loop
and copy failures during the attachment loop are caught in `try/except`
blocks and only reduce the exported counts. -/
def exportMOC (resolve direct : Nat → Option Nat) (tvault : Nat → Option (List Char))
    (resolveA resolveN : List Char → Option Nat) (maxDepth : Nat)
    (copyFails : Nat → Bool) (moc : Nat) : Except String ExportStats :=
  match (match resolve moc with
         | some f => some f
         | none => direct moc) with
  | none => Except.error "MOC file not found"
  | some mocFile =>
    let s := runCollect (textVault tvault resolveA resolveN) maxDepth mocFile
    let atts := exportPass tvault resolveA s
    Except.ok
      { notes_collected := s.collected_notes.length
        notes_exported :=
          ((s.collected_notes.map Prod.fst).filter (fun n => (tvault n).isSome)).length
        attachments_collected := atts.length
        attachments_exported := (atts.filter (fun p => ! copyFails p)).length }

theorem foldl_addAttachment_mono {q : Nat} : ∀ (l a : List Nat),
    q ∈ a → q ∈ l.foldl addAttachment a := by
  intro l
  induction l with
  | nil => intro a h; exact h
  | cons p t ih => intro a h; exact ih _ (mem_addAttachment_of_mem p h)

theorem foldl_addAttachment_mem {p : Nat} : ∀ (l a : List Nat),
    p ∈ l → p ∈ l.foldl addAttachment a := by
  intro l
  induction l with
  | nil => intro a h; cases h
  | cons q t ih =>
    intro a h
    rcases List.mem_cons.mp h with rfl | hmem
    · exact foldl_addAttachment_mono t _ (mem_addAttachment_self a p)
    · exact ih _ hmem

theorem exportStep_mono {tvault : Nat → Option (List Char)}
    {resolveA : List Char → Option Nat} {a : List Nat} {q : Nat}
    (n : Nat) (h : q ∈ a) : q ∈ exportStep tvault resolveA a n := by
  rw [exportStep]
  cases tvault n with
  | none => exact h
  | some txt => exact foldl_addAttachment_mono _ a h

theorem foldl_exportStep_mono {tvault : Nat → Option (List Char)}
    {resolveA : List Char → Option Nat} {q : Nat} :
    ∀ (keys a : List Nat), q ∈ a → q ∈ keys.foldl (exportStep tvault resolveA) a := by
  intro keys
  induction keys with
  | nil => intro a h; exact h
  | cons k rest ih => intro a h; exact ih _ (exportStep_mono k h)

theorem foldl_exportStep_mem {tvault : Nat → Option (List Char)}
    {resolveA : List Char → Option Nat} {n p : Nat} {txt : List Char}
    (hv : tvault n = some txt) (hp : p ∈ convertAttachments resolveA txt) :
    ∀ (keys a : List Nat), n ∈ keys → p ∈ keys.foldl (exportStep tvault resolveA) a := by
  intro keys
  induction keys with
  | nil => intro a h; cases h
  | cons k rest ih =>
    intro a h
    rcases List.mem_cons.mp h with heq | hmem
    · refine foldl_exportStep_mono rest _ ?_
      rw [← heq, exportStep, hv]
      exact foldl_addAttachment_mem _ a hp
    · exact ih _ hmem

/-! ## C3: which attachments are in the set before copying starts -/

/-- Vault whose only document `0` consists of one commented-out attachment
embed. -/
def commentVault : Nat → Option (List Char) := fun n =>
  if n = 0 then some "%%![[i.png]]%%".toList else none

/-- Attachment resolution for the C3 vaults: `i.png` exists, as path `7`. -/
def commentResolve : List Char → Option Nat := fun f =>
  if f = "i.png".toList then some 7 else none

/-- C3 counterexample: with `max_depth = 0` the root is itself a
maximum-depth document, recorded without being read.  Its text holds the
attachment reference `![[i.png]]` — `extract_links` returns it, it is an
attachment and it resolves to path `7` — but the export conversion strips
the `%%...%%` comment before its rewrite passes run (line 167), so `7` is
still absent from `collected_attachments` when the copy loop starts: the
program does not collect every resolving attachment reference of every
visited document. -/
theorem export_attachment_missed :
    ("i.png".toList, (none : Option (List Char)), true)
        ∈ extract_links ("%%![[i.png]]%%".toList) ∧
    is_attachment ("i.png".toList) = true ∧
    commentResolve ("i.png".toList) = some 7 ∧
    lookupNote (runCollect
        (textVault commentVault commentResolve (fun _ => none)) 0 0).collected_notes 0
      = some 0 ∧
    ¬ 7 ∈ exportPass commentVault commentResolve
        (runCollect (textVault commentVault commentResolve (fun _ => none)) 0 0) := by
  have hrun : runCollect (textVault commentVault commentResolve (fun _ => none)) 0 0 =
      { collected_notes := [(0, 0)], collected_attachments := [], expansions := [] } := by
    rw [runCollect, collect_eq_stop (by rfl) (by omega)]
    decide
  refine ⟨by decide, by decide, by decide, ?_, ?_⟩
  · rw [hrun]; rfl
  · rw [hrun]; decide

/-- Vault for the C3 witness: root `0` links to note `1` (target `n`), whose
text is one clean attachment embed; with `max_depth = 1` note `1` sits
exactly at the depth bound, so the traversal records it without reading
it. -/
def maxDepthVault : Nat → Option (List Char) := fun n =>
  if n = 0 then some "[[n]]".toList
  else if n = 1 then some "![[i.png]]".toList else none

/-- Note resolution for the C3 witness vault: target `n` is document `1`. -/
def maxDepthNoteResolve : List Char → Option Nat := fun f =>
  if f = ['n'] then some 1 else none

/-- C3 (amended): before the attachment copy loop runs,
`collected_attachments` holds (i) every attachment path that converting any
collected document — recorded at whatever depth `d`, including exactly
`max_depth`, where the traversal itself read nothing — records through the
rewrite callbacks, and (ii) every attachment the traversal had already
collected.  The conversion parses the comment-stripped text without
whitespace-stripping filenames, so — against the original claim — this
covers exactly the references its own passes see, not every resolving
attachment reference of the raw text (see `export_attachment_missed`). -/
theorem export_collects_converted_attachments (tvault : Nat → Option (List Char))
    (resolveA resolveN : List Char → Option Nat) (maxD root n d p : Nat) (txt : List Char)
    (hn : lookupNote
        (runCollect (textVault tvault resolveA resolveN) maxD root).collected_notes n
      = some d)
    (ht : tvault n = some txt)
    (hp : p ∈ convertAttachments resolveA txt) :
    p ∈ exportPass tvault resolveA (runCollect (textVault tvault resolveA resolveN) maxD root) ∧
    ∀ q ∈ (runCollect (textVault tvault resolveA resolveN) maxD root).collected_attachments,
      q ∈ exportPass tvault resolveA
        (runCollect (textVault tvault resolveA resolveN) maxD root) := by
  constructor
  · rw [exportPass]
    exact foldl_exportStep_mem ht hp _ _ (lookupNote_mem_keys hn)
  · intro q hq
    rw [exportPass]
    exact foldl_exportStep_mono _ _ hq

/-- Witness for C3 (amended): note `1` is collected at depth
`1 = max_depth`, so the traversal never read it, yet converting its text
records attachment `7`, which is in the final set before copying. -/
theorem export_collects_converted_attachments_witness :
    7 ∈ exportPass maxDepthVault commentResolve
      (runCollect (textVault maxDepthVault commentResolve maxDepthNoteResolve) 1 0) :=
  (export_collects_converted_attachments maxDepthVault commentResolve maxDepthNoteResolve
    1 0 1 1 7 ("![[i.png]]".toList)
    (by
      have hv0 : textVault maxDepthVault commentResolve maxDepthNoteResolve 0
          = some [RefItem.note (some 1)] := by decide
      have hrun : runCollect (textVault maxDepthVault commentResolve maxDepthNoteResolve) 1 0 =
          { collected_notes := [(0, 0), (1, 1)], collected_attachments := [],
            expansions := [(0, 0)] } := by
        rw [runCollect, collect_eq_expand (by rfl) (by omega) hv0, collectLinks_note_some,
          collect_eq_stop (by rfl) (by omega), collectLinks_nil]
        decide
      rw [hrun]
      rfl)
    rfl (by decide)).1

/-! ## C8: only root-resolution failure aborts `export` -/

/-- C8: `export` fails — with the not-found error, raised before any
traversal or output — exactly when the root selector resolves neither
through `find_note_file` nor as a direct vault-relative existing path; and
the not-found error is the only error `export` ever returns, whatever the
vault texts (unreadable documents included), the link resolutions and the
failing copies. -/
theorem export_notfound_iff (resolve direct : Nat → Option Nat)
    (tvault : Nat → Option (List Char)) (resolveA resolveN : List Char → Option Nat)
    (maxDepth : Nat) (copyFails : Nat → Bool) (moc : Nat) :
    (exportMOC resolve direct tvault resolveA resolveN maxDepth copyFails moc
        = Except.error "MOC file not found" ↔
      resolve moc = none ∧ direct moc = none) ∧
    ∀ e, exportMOC resolve direct tvault resolveA resolveN maxDepth copyFails moc
        = Except.error e → e = "MOC file not found" := by
  cases hr : resolve moc with
  | some f =>
    refine ⟨⟨?_, ?_⟩, ?_⟩
    · intro h
      simp only [exportMOC, hr] at h
      exact Except.noConfusion h
    · rintro ⟨h1, h2⟩
      exact Option.noConfusion h1
    · intro e h
      simp only [exportMOC, hr] at h
      exact Except.noConfusion h
  | none =>
    cases hd : direct moc with
    | some f =>
      refine ⟨⟨?_, ?_⟩, ?_⟩
      · intro h
        simp only [exportMOC, hr, hd] at h
        exact Except.noConfusion h
      · rintro ⟨h1, h2⟩
        exact Option.noConfusion h2
      · intro e h
        simp only [exportMOC, hr, hd] at h
        exact Except.noConfusion h
    | none =>
      refine ⟨⟨?_, ?_⟩, ?_⟩
      · intro _
        exact ⟨rfl, rfl⟩
      · intro _
        simp only [exportMOC, hr, hd]
      · intro e h
        simp only [exportMOC, hr, hd, Except.error.injEq] at h
        exact h.symm

/-- Witness for C8: with nothing resolving, `export` returns precisely the
not-found error. -/
theorem export_notfound_iff_witness :
    exportMOC (fun _ => none) (fun _ => none) (fun _ => none) (fun _ => none)
      (fun _ => none) 2 (fun _ => false) 7 = Except.error "MOC file not found" :=
  (export_notfound_iff (fun _ => none) (fun _ => none) (fun _ => none) (fun _ => none)
    (fun _ => none) 2 (fun _ => false) 7).1.mpr ⟨rfl, rfl⟩

/-! ## C2: the size-modifier embed scenario -/

/-- C2 (evaluation of the code at the failing input): on
`![[image.png|description|300x200]]` the optional group `(?:\|([^\]+]...))?`
of `EMBED_PATTERN` captures everything after the FIRST pipe — `[^\]]` accepts
`|` — so `replace_embed` uses `description|300x200` as the alt text and the
code emits `![description|300x200](image.png)`, not the
`![description](image.png)` that the spec's Scenario 2 and the repository's
own test `test_image_embed_with_alt_and_dimensions` require. -/
theorem convert_dimension_embed :
    convert_to_standard_markdown ("![[image.png|description|300x200]]".toList)
      = "![description|300x200](image.png)".toList ∧
    convert_to_standard_markdown ("![[image.png|description|300x200]]".toList)
      ≠ "![description](image.png)".toList := by
  exact ⟨by decide, by decide⟩

/-! ## C10: what `extract_links` returns for embeds -/

/-- C10 counterexample: in `[[a|![[b]]` the wiki pattern matches the whole
text starting at position 0 (its alias class `[^\]]+` accepts `!`, `[` and `|`),
consuming the embed's bracket pair, so the embed occurrence `![[b]]`
contributes its embed entry but no wiki entry: the claimed
`(b, none, is_embed = false)` entry is absent. -/
theorem extract_links_embed_swallowed :
    extract_links ("[[a|![[b]]".toList)
      = [(['b'], none, true), (['a'], some "![[b".toList, false)] ∧
    (['b'], (none : Option (List Char)), true) ∈ extract_links ("[[a|![[b]]".toList) ∧
    ¬ (['b'], (none : Option (List Char)), false) ∈ extract_links ("[[a|![[b]]".toList) := by
  exact ⟨by decide, by decide, by decide⟩

theorem takeWhile_append_all {p : Char → Bool} :
    ∀ {l1 l2 : List Char}, (∀ c ∈ l1, p c = true) →
    (l1 ++ l2).takeWhile p = l1 ++ l2.takeWhile p := by
  intro l1
  induction l1 with
  | nil => intro l2 _; rfl
  | cons c t ih =>
    intro l2 h
    have hc := h c (List.mem_cons_self _ _)
    simp only [List.cons_append, List.takeWhile_cons, hc, if_true]
    rw [ih (fun x hx => h x (List.mem_cons_of_mem _ hx))]

theorem dropWhile_append_all {p : Char → Bool} :
    ∀ {l1 l2 : List Char}, (∀ c ∈ l1, p c = true) →
    (l1 ++ l2).dropWhile p = l2.dropWhile p := by
  intro l1
  induction l1 with
  | nil => intro l2 _; rfl
  | cons c t ih =>
    intro l2 h
    have hc := h c (List.mem_cons_self _ _)
    simp only [List.cons_append, List.dropWhile_cons, hc, if_true]
    exact ih (fun x hx => h x (List.mem_cons_of_mem _ hx))

/-- Behaviour of `matchWiki` on a standalone well-formed bracket pair `[[g1]]`. -/
theorem matchWiki_plain (g1 : List Char) (hne : g1 ≠ [])
    (hg : ∀ c ∈ g1, c ≠ ']' ∧ c ≠ '|') :
    matchWiki ('[' :: '[' :: (g1 ++ [']', ']'])) = some ((g1, none), []) := by
  have hall : ∀ c ∈ g1, (fun c => decide (c ≠ ']' ∧ c ≠ '|')) c = true := by
    intro c hc
    exact decide_eq_true (hg c hc)
  have htake : (g1 ++ [']', ']']).takeWhile (fun c => decide (c ≠ ']' ∧ c ≠ '|'))
      = g1 ++ [] := by
    rw [takeWhile_append_all hall]
    rfl
  have hdrop : (g1 ++ [']', ']']).dropWhile (fun c => decide (c ≠ ']' ∧ c ≠ '|'))
      = [']', ']'] := by
    rw [dropWhile_append_all hall]
    rfl
  rw [List.append_nil] at htake
  simp only [matchWiki, htake, hdrop]
  rw [if_neg hne]

theorem embedMatchListF_nil (fuel : Nat) : embedMatchListF fuel [] = [] := by
  cases fuel <;> rfl

theorem wikiMatchListF_nil (fuel : Nat) : wikiMatchListF fuel [] = [] := by
  cases fuel <;> rfl

/-- C10 amended: (i) `extract_links` is exactly all embed-pattern matches in
source order, flagged `is_embed = true`, followed by all wiki-pattern matches
of the same original text in source order, flagged `false`; (ii) a standalone
embed `![[g1]]` with a plain target does yield the two entries derived from
the single occurrence — the embed match, and the wiki match of its inner
bracket pair — but (per the counterexample) an overlapping wiki match that
starts earlier may consume an embed's bracket pair, so the two-entry rule
holds for such standalone occurrences rather than for every occurrence. -/
theorem extract_links_order (content g1 : List Char) (hne : g1 ≠ [])
    (hg : ∀ c ∈ g1, c ≠ ']' ∧ c ≠ '|') :
    extract_links content
      = (embedMatchList content).map (fun g => (g.1, g.2, true)) ++
        (wikiMatchList content).map (fun g => (g.1, g.2, false)) ∧
    extract_links ('!' :: '[' :: '[' :: g1 ++ [']', ']'])
      = [(g1, none, true), (g1, none, false)] := by
  constructor
  · rfl
  · have hmw := matchWiki_plain g1 hne hg
    have hlen : ('!' :: '[' :: '[' :: g1 ++ [']', ']']).length = g1.length + 5 := by
      simp only [List.length_cons, List.length_append, List.length_nil]
    have hembed : embedMatchList ('!' :: '[' :: '[' :: g1 ++ [']', ']']) = [(g1, none)] := by
      rw [embedMatchList, hlen, show g1.length + 5 = (g1.length + 4) + 1 from rfl]
      show (match matchWiki ('[' :: '[' :: g1 ++ [']', ']']) with
            | some gr => gr.1 :: embedMatchListF (g1.length + 4) gr.2
            | none => embedMatchListF (g1.length + 4) ('[' :: '[' :: g1 ++ [']', ']']))
          = [(g1, none)]
      simp only [List.cons_append]
      rw [hmw]
      rfl
    have hwiki : wikiMatchList ('!' :: '[' :: '[' :: g1 ++ [']', ']']) = [(g1, none)] := by
      rw [wikiMatchList, hlen, show g1.length + 5 = ((g1.length + 3) + 1) + 1 from rfl]
      show wikiMatchListF ((g1.length + 3) + 1) ('[' :: '[' :: g1 ++ [']', ']'])
          = [(g1, none)]
      show (match matchWiki ('[' :: '[' :: g1 ++ [']', ']']) with
            | some gr => gr.1 :: wikiMatchListF (g1.length + 3) gr.2
            | none => wikiMatchListF (g1.length + 3) ('[' :: g1 ++ [']', ']']))
          = [(g1, none)]
      simp only [List.cons_append]
      rw [hmw]
      rfl
    rw [extract_links, hembed, hwiki]
    rfl

/-- Witness for C10: the order decomposition at `x`, and the standalone embed
`![[y]]` producing exactly its two entries. -/
theorem extract_links_order_witness :
    extract_links ("x".toList)
      = (embedMatchList ("x".toList)).map (fun g => (g.1, g.2, true)) ++
        (wikiMatchList ("x".toList)).map (fun g => (g.1, g.2, false)) ∧
    extract_links ("![[y]]".toList) = [(['y'], none, true), (['y'], none, false)] :=
  extract_links_order ("x".toList) ['y'] (by decide) (by decide)

/-! ## C5: idempotence of `convert_to_standard_markdown` -/

/-- C5 counterexample: `convert` is not idempotent.  On `[[[[x]]]]` the wiki
pattern matches `[[[[x]]` with target `[[x`, and the emitted destination
`[[x.md` re-introduces a `[[` that, together with the leftover `]]`, forms a
fresh wiki-link occurrence, so a second conversion rewrites again. -/
theorem convert_not_idempotent :
    convert_to_standard_markdown
        (convert_to_standard_markdown ("[[[[x]]]]".toList))
      ≠ convert_to_standard_markdown ("[[[[x]]]]".toList) ∧
    convert_to_standard_markdown ("[[[[x]]]]".toList) = "[[[x]([[x.md)]]".toList ∧
    convert_to_standard_markdown ("[[[x]([[x.md)]]".toList)
      = "[[[x]([x.md)](x.md)".toList := by
  exact ⟨by decide, by decide, by decide⟩

theorem hasPP_cons2 (c1 c2 : Char) (t2 : List Char) :
    hasPP (c1 :: c2 :: t2) = if c1 = '%' ∧ c2 = '%' then true else hasPP (c2 :: t2) := rfl

theorem hasCommentPair_cons2 (c1 c2 : Char) (t2 : List Char) :
    hasCommentPair (c1 :: c2 :: t2) =
      if c1 = '%' ∧ c2 = '%' then hasPP t2 else hasCommentPair (c2 :: t2) := rfl

theorem findClose_cons2 (c1 c2 : Char) (t2 : List Char) :
    findClose (c1 :: c2 :: t2) =
      if c1 = '%' ∧ c2 = '%' then some ([], t2)
      else
        match findClose (c2 :: t2) with
        | some (i, r) => some (c1 :: i, r)
        | none => none := rfl

theorem stripCommentsF_cons2 (fuel : Nat) (c1 c2 : Char) (rest2 : List Char) :
    stripCommentsF (fuel + 1) (c1 :: c2 :: rest2) =
      if c1 = '%' ∧ c2 = '%' then
        match findClose rest2 with
        | some (_, r) => stripCommentsF fuel r
        | none => c1 :: stripCommentsF fuel (c2 :: rest2)
      else c1 :: stripCommentsF fuel (c2 :: rest2) := rfl

theorem hasPP_false_tail {c : Char} {t : List Char} (h : hasPP (c :: t) = false) :
    hasPP t = false := by
  cases t with
  | nil => rfl
  | cons c2 t2 =>
    rw [hasPP_cons2] at h
    by_cases hc : c = '%' ∧ c2 = '%'
    · rw [if_pos hc] at h
      exact Bool.noConfusion h
    · rw [if_neg hc] at h
      exact h

theorem hasCommentPair_of_no_pp : ∀ {l : List Char}, hasPP l = false →
    hasCommentPair l = false := by
  intro l
  induction l with
  | nil => intro _; rfl
  | cons c t ih =>
    intro h
    cases t with
    | nil => rfl
    | cons c2 t2 =>
      rw [hasCommentPair_cons2]
      rw [hasPP_cons2] at h
      by_cases hc : c = '%' ∧ c2 = '%'
      · rw [if_pos hc] at h
        exact Bool.noConfusion h
      · rw [if_neg hc] at h
        rw [if_neg hc]
        exact ih h

theorem hasCommentPair_cons_of_no_pp {c : Char} {t : List Char}
    (h : hasPP t = false) : hasCommentPair (c :: t) = false := by
  cases t with
  | nil => rfl
  | cons c2 t2 =>
    rw [hasCommentPair_cons2]
    by_cases hc : c = '%' ∧ c2 = '%'
    · rw [if_pos hc]
      exact hasPP_false_tail h
    · rw [if_neg hc]
      exact hasCommentPair_of_no_pp h

theorem findClose_none_of_no_pp : ∀ {l : List Char}, hasPP l = false →
    findClose l = none := by
  intro l
  induction l with
  | nil => intro _; rfl
  | cons c t ih =>
    intro h
    cases t with
    | nil => rfl
    | cons c2 t2 =>
      rw [findClose_cons2]
      rw [hasPP_cons2] at h
      by_cases hc : c = '%' ∧ c2 = '%'
      · rw [if_pos hc] at h
        exact Bool.noConfusion h
      · rw [if_neg hc] at h
        rw [if_neg hc, ih h]

theorem hasPP_false_of_findClose_none : ∀ {l : List Char}, findClose l = none →
    hasPP l = false := by
  intro l
  induction l with
  | nil => intro _; rfl
  | cons c t ih =>
    intro h
    cases t with
    | nil => rfl
    | cons c2 t2 =>
      rw [findClose_cons2] at h
      rw [hasPP_cons2]
      by_cases hc : c = '%' ∧ c2 = '%'
      · rw [if_pos hc] at h
        exact Option.noConfusion h
      · rw [if_neg hc] at h
        rw [if_neg hc]
        apply ih
        cases hf : findClose (c2 :: t2) with
        | none => rfl
        | some q =>
          rw [hf] at h
          exact Option.noConfusion h

/-- With no comment match anywhere, `COMMENT_PATTERN.sub` is the identity. -/
theorem stripCommentsF_noop : ∀ (fuel : Nat) (l : List Char),
    hasCommentPair l = false → stripCommentsF fuel l = l := by
  intro fuel
  induction fuel with
  | zero => intro l _; rfl
  | succ fuel ih =>
    intro l h
    cases l with
    | nil => rfl
    | cons c1 rest =>
      cases rest with
      | nil => rfl
      | cons c2 rest2 =>
        rw [stripCommentsF_cons2]
        rw [hasCommentPair_cons2] at h
        by_cases hc : c1 = '%' ∧ c2 = '%'
        · rw [if_pos hc]
          rw [if_pos hc] at h
          rw [findClose_none_of_no_pp h]
          rw [ih _ (hasCommentPair_cons_of_no_pp h)]
        · rw [if_neg hc]
          rw [if_neg hc] at h
          rw [ih _ h]

/-- With no wiki-link match anywhere, `WIKILINK_PATTERN.sub` is the identity. -/
theorem wikiScanF_noop (f : List Char × Option (List Char) → List Char) :
    ∀ (fuel : Nat) (l : List Char), wikiMatchListF fuel l = [] →
    wikiScanF f fuel l = l := by
  intro fuel
  induction fuel with
  | zero => intro l _; rfl
  | succ fuel ih =>
    intro l h
    cases l with
    | nil => rfl
    | cons c rest =>
      simp only [wikiScanF]
      simp only [wikiMatchListF] at h
      cases hm : matchWiki (c :: rest) with
      | some gr =>
        rw [hm] at h
        exact List.noConfusion h
      | none =>
        rw [hm] at h
        show c :: wikiScanF f fuel rest = c :: rest
        rw [ih rest h]

/-- With no embed match anywhere, `EMBED_PATTERN.sub` is the identity. -/
theorem embedScanF_noop (f : List Char × Option (List Char) → List Char) :
    ∀ (fuel : Nat) (l : List Char), embedMatchListF fuel l = [] →
    embedScanF f fuel l = l := by
  intro fuel
  induction fuel with
  | zero => intro l _; rfl
  | succ fuel ih =>
    intro l h
    cases l with
    | nil => rfl
    | cons c rest =>
      simp only [embedScanF]
      simp only [embedMatchListF] at h
      by_cases hc : c = '!'
      · rw [if_pos hc]
        rw [if_pos hc] at h
        cases hm : matchWiki rest with
        | some gr =>
          rw [hm] at h
          exact List.noConfusion h
        | none =>
          rw [hm] at h
          show c :: embedScanF f fuel rest = c :: rest
          rw [ih rest h]
      · rw [if_neg hc]
        rw [if_neg hc] at h
        rw [ih rest h]

/-- Converting text that contains no proprietary syntax is a no-op. -/
theorem convert_noop (l : List Char)
    (h1 : hasCommentPair l = false)
    (h2 : embedMatchList l = [])
    (h3 : wikiMatchList l = []) :
    convert_to_standard_markdown l = l := by
  rw [convert_to_standard_markdown, stripComments, stripCommentsF_noop _ _ h1]
  rw [embedMatchList] at h2
  rw [wikiMatchList] at h3
  rw [embedSub, embedScanF_noop _ _ _ h2, wikiSub, wikiScanF_noop _ _ _ h3]

/-- C5 amended: a second conversion is a no-op exactly on those first-pass
outputs that contain no remaining proprietary syntax — no comment pair, no
embed-pattern match and no wiki-pattern match.  (By `convert_not_idempotent`
this condition is not automatic: rewriting a bracket-containing target can
produce fresh wiki-link syntax.) -/
theorem convert_idempotent_when_clean (t : List Char)
    (h1 : hasCommentPair (convert_to_standard_markdown t) = false)
    (h2 : embedMatchList (convert_to_standard_markdown t) = [])
    (h3 : wikiMatchList (convert_to_standard_markdown t) = []) :
    convert_to_standard_markdown (convert_to_standard_markdown t)
      = convert_to_standard_markdown t :=
  convert_noop _ h1 h2 h3

/-- Witness for C5 (amended): `[[a]]` converts to `[a](a.md)`, which is clean,
so the second conversion leaves it unchanged. -/
theorem convert_idempotent_when_clean_witness :
    convert_to_standard_markdown (convert_to_standard_markdown ("[[a]]".toList))
      = convert_to_standard_markdown ("[[a]]".toList) :=
  convert_idempotent_when_clean ("[[a]]".toList) (by decide) (by decide) (by decide)

/-! ## C6: structure of comment removal -/

theorem hasPP_pair_of_ne {c : Char} (h : ¬ c = '%') : hasPP (c :: ['%']) = false := by
  rw [hasPP_cons2, if_neg (fun hh => h hh.1)]
  rfl

theorem hasPP_cons_of_ne {c d : Char} {t : List Char} (h : hasPP (d :: t) = false)
    (hcd : ¬(c = '%' ∧ d = '%')) : hasPP (c :: d :: t) = false := by
  rw [hasPP_cons2, if_neg hcd]
  exact h

/-- Soundness of the lazy closer search: on success the text splits as the
comment interior followed by the closing `%%`, and the interior (even with one
more `%` appended) contains no earlier closer. -/
theorem findClose_sound : ∀ {l : List Char} {p : List Char × List Char},
    findClose l = some p →
    l = p.1 ++ '%' :: '%' :: p.2 ∧ hasPP (p.1 ++ ['%']) = false := by
  intro l
  induction l with
  | nil => intro p h; exact Option.noConfusion h
  | cons c t ih =>
    intro p h
    cases t with
    | nil => exact Option.noConfusion h
    | cons c2 t2 =>
      rw [findClose_cons2] at h
      by_cases hc : c = '%' ∧ c2 = '%'
      · rw [if_pos hc] at h
        injection h with h
        subst h
        obtain ⟨h1, h2⟩ := hc
        subst h1
        subst h2
        exact ⟨rfl, rfl⟩
      · rw [if_neg hc] at h
        cases hf : findClose (c2 :: t2) with
        | none =>
          rw [hf] at h
          exact Option.noConfusion h
        | some q =>
          rw [hf] at h
          injection h with h
          obtain ⟨ih1, ih2⟩ := ih hf
          subst h
          constructor
          · show c :: c2 :: t2 = (c :: q.1) ++ '%' :: '%' :: q.2
            rw [List.cons_append, ← ih1]
          · show hasPP ((c :: q.1) ++ ['%']) = false
            rw [List.cons_append]
            cases hq : q.1 with
            | nil =>
              rw [hq] at ih1
              simp only [List.nil_append] at ih1
              injection ih1 with hc2 _
              have hcne : ¬ c = '%' := fun hcc => hc ⟨hcc, hc2⟩
              exact hasPP_pair_of_ne hcne
            | cons d q1t =>
              rw [hq] at ih1 ih2
              simp only [List.cons_append] at ih1 ih2
              injection ih1 with hc2 _
              exact hasPP_cons_of_ne ih2 (fun hh => hc ⟨hh.1, by rw [hc2]; exact hh.2⟩)

/-- One removed comment: the kept text before it and the comment interior. -/
def pieceText (p : List Char × List Char) : List Char :=
  p.1 ++ '%' :: '%' :: (p.2 ++ ['%', '%'])

/-- Decomposition of the comment scanner: the input splits into alternating
kept segments and `%%`-delimited comments (interiors free of `%%`, kept
segments unable to combine with what follows into a comment), and the output
is exactly the kept segments followed by the comment-free tail. -/
theorem stripCommentsF_structure : ∀ (fuel : Nat) (l : List Char), l.length ≤ fuel →
    ∃ (ps : List (List Char × List Char)) (tail : List Char),
      l = (ps.map pieceText).join ++ tail ∧
      stripCommentsF fuel l = (ps.map Prod.fst).join ++ tail ∧
      (∀ p ∈ ps, hasPP (p.1 ++ ['%']) = false ∧ hasPP (p.2 ++ ['%']) = false) ∧
      hasCommentPair tail = false := by
  intro fuel
  induction fuel with
  | zero =>
    intro l hl
    have hnil : l = [] := List.length_eq_zero.mp (Nat.le_zero.mp hl)
    subst hnil
    exact ⟨[], [], rfl, rfl, fun p hp => absurd hp (List.not_mem_nil p), rfl⟩
  | succ fuel ih =>
    intro l hl
    cases l with
    | nil => exact ⟨[], [], rfl, rfl, fun p hp => absurd hp (List.not_mem_nil p), rfl⟩
    | cons c1 rest =>
      cases rest with
      | nil => exact ⟨[], [c1], rfl, rfl, fun p hp => absurd hp (List.not_mem_nil p), rfl⟩
      | cons c2 rest2 =>
        by_cases hc : c1 = '%' ∧ c2 = '%'
        · obtain ⟨h1, h2⟩ := hc
          subst h1
          subst h2
          cases hf : findClose rest2 with
          | some q =>
            obtain ⟨hfe, hfp⟩ := findClose_sound hf
            have hq2len : q.2.length ≤ fuel := by
              have hlen2 := congrArg List.length hfe
              simp only [List.length_append, List.length_cons] at hlen2
              simp only [List.length_cons] at hl
              omega
            obtain ⟨ps1, tail1, he1, he2, he3, he4⟩ := ih q.2 hq2len
            refine ⟨([], q.1) :: ps1, tail1, ?_, ?_, ?_, he4⟩
            · rw [hfe, he1]
              simp [pieceText, List.append_assoc]
            · rw [stripCommentsF_cons2, if_pos ⟨rfl, rfl⟩, hf]
              show stripCommentsF fuel q.2 = ((([], q.1) :: ps1).map Prod.fst).join ++ tail1
              rw [he2]
              simp
            · intro p hp
              rcases List.mem_cons.mp hp with heq | hmem
              · rw [heq]
                exact ⟨rfl, hfp⟩
              · exact he3 p hmem
          | none =>
            have hpp : hasPP rest2 = false := hasPP_false_of_findClose_none hf
            refine ⟨[], '%' :: '%' :: rest2, rfl, ?_,
              fun p hp => absurd hp (List.not_mem_nil p), ?_⟩
            · rw [stripCommentsF_cons2, if_pos ⟨rfl, rfl⟩, hf]
              rw [stripCommentsF_noop fuel _ (hasCommentPair_cons_of_no_pp hpp)]
              rfl
            · rw [hasCommentPair_cons2, if_pos ⟨rfl, rfl⟩]
              exact hpp
        · obtain ⟨ps1, tail1, he1, he2, he3, he4⟩ := ih (c2 :: rest2)
            (by simp only [List.length_cons] at hl ⊢; omega)
          cases hps : ps1 with
          | nil =>
            rw [hps] at he1 he2
            simp only [List.map_nil, List.join_nil, List.nil_append] at he1 he2
            refine ⟨[], c1 :: tail1, ?_, ?_, fun p hp => absurd hp (List.not_mem_nil p), ?_⟩
            · rw [← he1]
              rfl
            · rw [stripCommentsF_cons2, if_neg hc, he2]
              rfl
            · rw [← he1, hasCommentPair_cons2, if_neg hc, he1]
              exact he4
          | cons p0 ps2 =>
            rw [hps] at he1 he2 he3
            have he1' : c2 :: rest2
                = pieceText p0 ++ ((List.map pieceText ps2).join ++ tail1) := by
              have h0 : c2 :: rest2
                  = (pieceText p0 ++ (List.map pieceText ps2).join) ++ tail1 := he1
              rw [List.append_assoc] at h0
              exact h0
            refine ⟨(c1 :: p0.1, p0.2) :: ps2, tail1, ?_, ?_, ?_, he4⟩
            · show c1 :: c2 :: rest2
                  = (pieceText (c1 :: p0.1, p0.2) ++ (List.map pieceText ps2).join) ++ tail1
              rw [List.append_assoc]
              rw [show pieceText (c1 :: p0.1, p0.2) = c1 :: pieceText p0 from rfl]
              rw [List.cons_append, ← he1']
            · rw [stripCommentsF_cons2, if_neg hc, he2]
              rfl
            · intro p hp
              rcases List.mem_cons.mp hp with heq | hmem
              · rw [heq]
                refine ⟨?_, (he3 p0 (List.mem_cons_self _ _)).2⟩
                have hp01 := (he3 p0 (List.mem_cons_self _ _)).1
                show hasPP ((c1 :: p0.1) ++ ['%']) = false
                cases hq : p0.1 with
                | nil =>
                  simp only [pieceText, hq, List.nil_append, List.cons_append] at he1'
                  injection he1' with hc2 _
                  exact hasPP_pair_of_ne (fun hcc => hc ⟨hcc, hc2⟩)
                | cons d q1t =>
                  rw [hq] at hp01
                  simp only [pieceText, hq, List.cons_append, List.append_assoc] at he1'
                  injection he1' with hc2 _
                  exact hasPP_cons_of_ne hp01 (fun hh => hc ⟨hh.1, by rw [hc2]; exact hh.2⟩)
              · exact he3 p (List.mem_cons_of_mem _ hmem)

/-- C6: comment removal inside `convert_to_standard_markdown`.  Every input
decomposes into kept segments alternating with `%%`-delimited comment spans,
where each span runs from an opening `%%` to the NEXT closing `%%` (its
interior, newlines included, contains no earlier closer).  The conversion
output is obtained from the kept segments alone — every character strictly
between an opener and its closer is gone before reference rewriting — and the
kept text enters the output subject only to the embed/wiki-link rewriting
passes. -/
theorem convert_comment_structure (t : List Char) :
    ∃ (ps : List (List Char × List Char)) (tail : List Char),
      t = (ps.map pieceText).join ++ tail ∧
      stripComments t = (ps.map Prod.fst).join ++ tail ∧
      (∀ p ∈ ps, hasPP (p.1 ++ ['%']) = false ∧ hasPP (p.2 ++ ['%']) = false) ∧
      hasCommentPair tail = false ∧
      convert_to_standard_markdown t
        = wikiSub replace_wikilink
            (embedSub replace_embed ((ps.map Prod.fst).join ++ tail)) := by
  obtain ⟨ps, tail, h1, h2, h3, h4⟩ := stripCommentsF_structure t.length t (le_refl _)
  refine ⟨ps, tail, h1, h2, h3, h4, ?_⟩
  rw [convert_to_standard_markdown, stripComments, h2]
